import Mathlib

/-!
Shallow embedding of the context-resolution and catalog-cache core of the
snowflake-lsp language server (`src/sql-parser.ts`, `src/session-context.ts`,
`src/schema-cache.ts`), together with theorems settling the frozen claims
about it.

Modelling conventions:
* JavaScript strings are Lean `String`s / `List Char`; `toLowerCase` /
  `toUpperCase` are modelled ASCII-faithfully by `lowChar` / `upChar`
  (the SQL identifiers this program manipulates are ASCII).
* JavaScript `Map` / `Set` become association lists / lists preserving
  insertion order, with `Map.set` replacing in place and `Set.add`
  appending, exactly as JS iteration order behaves.
* `Date.now()` becomes an explicit `now : Nat` parameter.
* Each regular expression of the source is compiled by hand into a
  character-level matcher with the same matching semantics (leftmost match,
  greedy runs, word boundaries, global-exec restart after the match end);
  each matcher is documented with the regex it embeds.
* Mutating class methods become state-passing functions on a `SchemaCache`
  record / a per-document `SessionContext` record; async methods whose only
  suspension point is the injected fetch callback take the callback as a
  pure function returning `Except`.
-/

deriving instance DecidableEq for Except

namespace SnowLSP

/-! ### Character classes and case folding

`isWordChar` is the JS regex class `\w`, `isSpaceChar` is `\s` (the ASCII
part), `lowChar`/`upChar` are `String.prototype.toLowerCase`/`toUpperCase`
restricted to ASCII, written as explicit letter tables so that all facts
about them are by finite case analysis. -/

def isWordChar (c : Char) : Bool := c.isAlphanum || c = '_'

def isSpaceChar (c : Char) : Bool :=
  c = ' ' || c = '\t' || c = '\n' || c = '\r' || c = '\x0b' || c = '\x0c'

def isWordDotChar (c : Char) : Bool := isWordChar c || c = '.'

def lowChar (c : Char) : Char :=
  if c = 'A' then 'a' else if c = 'B' then 'b' else if c = 'C' then 'c' else
  if c = 'D' then 'd' else if c = 'E' then 'e' else if c = 'F' then 'f' else
  if c = 'G' then 'g' else if c = 'H' then 'h' else if c = 'I' then 'i' else
  if c = 'J' then 'j' else if c = 'K' then 'k' else if c = 'L' then 'l' else
  if c = 'M' then 'm' else if c = 'N' then 'n' else if c = 'O' then 'o' else
  if c = 'P' then 'p' else if c = 'Q' then 'q' else if c = 'R' then 'r' else
  if c = 'S' then 's' else if c = 'T' then 't' else if c = 'U' then 'u' else
  if c = 'V' then 'v' else if c = 'W' then 'w' else if c = 'X' then 'x' else
  if c = 'Y' then 'y' else if c = 'Z' then 'z' else c

def upChar (c : Char) : Char :=
  if c = 'a' then 'A' else if c = 'b' then 'B' else if c = 'c' then 'C' else
  if c = 'd' then 'D' else if c = 'e' then 'E' else if c = 'f' then 'F' else
  if c = 'g' then 'G' else if c = 'h' then 'H' else if c = 'i' then 'I' else
  if c = 'j' then 'J' else if c = 'k' then 'K' else if c = 'l' then 'L' else
  if c = 'm' then 'M' else if c = 'n' then 'N' else if c = 'o' then 'O' else
  if c = 'p' then 'P' else if c = 'q' then 'Q' else if c = 'r' then 'R' else
  if c = 's' then 'S' else if c = 't' then 'T' else if c = 'u' then 'U' else
  if c = 'v' then 'V' else if c = 'w' then 'W' else if c = 'x' then 'X' else
  if c = 'y' then 'Y' else if c = 'z' then 'Z' else c

/-- JS `s.toLowerCase()` (ASCII). -/
def jsToLower (s : String) : String := ⟨s.data.map lowChar⟩

/-- JS `s.toUpperCase()` (ASCII). -/
def jsToUpper (s : String) : String := ⟨s.data.map upChar⟩

/-! ### List-level string helpers -/

/-- JS `haystack.includes(needle)` on character lists. -/
def containsSub (needle : List Char) : List Char → Bool
  | [] => needle.isEmpty
  | c :: cs => needle.isPrefixOf (c :: cs) || containsSub needle cs

/-- JS `s.split(sep)` for a single-character separator. -/
def splitOnChar (sep : Char) : List Char → List (List Char)
  | [] => [[]]
  | c :: cs =>
    if c = sep then [] :: splitOnChar sep cs
    else
      match splitOnChar sep cs with
      | [] => [[c]]
      | t :: ts => (c :: t) :: ts

/-! ### JS `Map` and `Set` as insertion-ordered association lists -/

/-- JS `Map.prototype.set`: replace in place if the key exists, else append. -/
def jsSet {α : Type} (k : String) (v : α) : List (String × α) → List (String × α)
  | [] => [(k, v)]
  | (k', v') :: rest => if k' = k then (k, v) :: rest else (k', v') :: jsSet k v rest

/-- JS `Map.prototype.get`. -/
def jsGet {α : Type} (k : String) : List (String × α) → Option α
  | [] => none
  | (k', v') :: rest => if k' = k then some v' else jsGet k rest

/-- JS `Map.prototype.has`. -/
def jsHas {α : Type} (k : String) (m : List (String × α)) : Bool := (jsGet k m).isSome

/-- JS `Map.prototype.delete` (keys are unique by construction). -/
def jsDelete {α : Type} (k : String) : List (String × α) → List (String × α)
  | [] => []
  | (k', v') :: rest => if k' = k then rest else (k', v') :: jsDelete k rest

/-- JS `Set.prototype.add`: append if absent. -/
def setAdd (k : String) (s : List String) : List String :=
  if s.contains k then s else s ++ [k]

/-! ### Session context (`src/session-context.ts`)

The `SessionContextManager` keeps one mutable record per document URI; the
claims are about a single document's record, so the embedding passes that
record explicitly.  `lastUpdated` keeps the `Date.now()` timestamp as a
`Nat` parameter. -/

inductive UseCommandType
  | DATABASE
  | SCHEMA
  | WAREHOUSE
  | ROLE
deriving DecidableEq, Repr

structure UseCommand where
  type : UseCommandType
  value : String
  line : Nat
deriving DecidableEq, Repr

structure SessionContext where
  uri : String
  database : Option String
  schema : Option String
  warehouse : Option String
  role : Option String
  lastUpdated : Nat
deriving DecidableEq, Repr

/-- `getContext` for an unseen URI when the global context is all-null
(the fresh record of the claims): every scalar field starts as `null`. -/
def freshContext (uri : String) (now : Nat) : SessionContext :=
  ⟨uri, none, none, none, none, now⟩

/-- One iteration of the `switch` in `SessionContextManager.updateContext`. -/
def applyUseCommand (ctx : SessionContext) (cmd : UseCommand) : SessionContext :=
  match cmd.type with
  | .DATABASE => { ctx with database := some (jsToUpper cmd.value), schema := none }
  | .SCHEMA => { ctx with schema := some (jsToUpper cmd.value) }
  | .WAREHOUSE => { ctx with warehouse := some (jsToUpper cmd.value) }
  | .ROLE => { ctx with role := some (jsToUpper cmd.value) }

/-- `SessionContextManager.updateContext`, acting on the document's record:
commands are applied sequentially, then `lastUpdated` is refreshed. -/
def updateContext (ctx : SessionContext) (commands : List UseCommand) (now : Nat) :
    SessionContext :=
  { commands.foldl applyUseCommand ctx with lastUpdated := now }

/-! ### Regex matchers for `parseUseCommands` (`src/sql-parser.ts`)

Each `matchUse...At` embeds one of the source's `line.match(...)` regexes at
a fixed start position; `scanFor` supplies the leftmost-match search.  The
greedy `\s+` / `\w+` / `[\w.]+` runs are maximal character runs, which agrees
with regex backtracking because each following token starts with a character
outside the preceding class. -/

/-- Case-insensitive literal: consumes `p` (the pattern) from the front of
the subject, comparing via `lowChar` on both sides (the `i` flag). -/
def matchLitCI : List Char → List Char → Option (List Char)
  | [], s => some s
  | _ :: _, [] => none
  | p :: ps, c :: cs => if lowChar c = lowChar p then matchLitCI ps cs else none

/-- Greedy `cls+`: the maximal nonempty run of class characters, returning
(run, rest). -/
def matchRun1 (p : Char → Bool) (s : List Char) : Option (List Char × List Char) :=
  let run := s.takeWhile p
  let rest := s.dropWhile p
  if run.isEmpty then none else some (run, rest)

/-- `USE\s+<kw>\s+(<cls>+)` at the current position (case-insensitive),
returning the capture. -/
def matchUseKwAt (kw : List Char) (cls : Char → Bool) (s : List Char) :
    Option (List Char) :=
  (matchLitCI ('u' :: 's' :: 'e' :: []) s).bind fun s1 =>
  (matchRun1 isSpaceChar s1).bind fun pr1 =>
  (matchLitCI kw pr1.2).bind fun s2 =>
  (matchRun1 isSpaceChar s2).bind fun pr2 =>
  (matchRun1 cls pr2.2).map Prod.fst

/-- `/USE\s+DATABASE\s+(\w+)/i` at one position. -/
def matchUseDbAt : List Char → Option (List Char) :=
  matchUseKwAt ('d' :: 'a' :: 't' :: 'a' :: 'b' :: 'a' :: 's' :: 'e' :: []) isWordChar

/-- `/USE\s+SCHEMA\s+([\w.]+)/i` at one position. -/
def matchUseSchemaAt : List Char → Option (List Char) :=
  matchUseKwAt ('s' :: 'c' :: 'h' :: 'e' :: 'm' :: 'a' :: []) isWordDotChar

/-- `/USE\s+WAREHOUSE\s+(\w+)/i` at one position. -/
def matchUseWhAt : List Char → Option (List Char) :=
  matchUseKwAt ('w' :: 'a' :: 'r' :: 'e' :: 'h' :: 'o' :: 'u' :: 's' :: 'e' :: []) isWordChar

/-- `/USE\s+ROLE\s+(\w+)/i` at one position. -/
def matchUseRoleAt : List Char → Option (List Char) :=
  matchUseKwAt ('r' :: 'o' :: 'l' :: 'e' :: []) isWordChar

/-- `/USE\s+(\w+)/i` (the shorthand pattern) at one position. -/
def matchUseShortAt (s : List Char) : Option (List Char) :=
  (matchLitCI ('u' :: 's' :: 'e' :: []) s).bind fun s1 =>
  (matchRun1 isSpaceChar s1).bind fun pr1 =>
  (matchRun1 isWordChar pr1.2).map Prod.fst

/-- JS `String.prototype.match` for an unanchored pattern: try every start
position from the left, first success wins. -/
def scanFor {α : Type} (f : List Char → Option α) : List Char → Option α
  | [] => f []
  | c :: cs =>
    match f (c :: cs) with
    | some r => some r
    | none => scanFor f cs

/-- The comment-line skips of `parseUseCommands`: a line whose leading
whitespace is followed by a double dash or by a block-comment opener. -/
def lineIsComment (l : List Char) : Bool :=
  let l' := l.dropWhile isSpaceChar
  (('-' :: '-' :: []).isPrefixOf l') || (('/' :: '*' :: []).isPrefixOf l')

/-- The per-line body of `parseUseCommands` (`src/sql-parser.ts`, lines
189-242): specific `USE` patterns are tried in order, the two-segment
qualified `USE SCHEMA db.schema` splits into a DATABASE plus a SCHEMA
command, and the bare shorthand comes last. -/
def parseUseLine (i : Nat) (l : List Char) : List UseCommand :=
  if lineIsComment l then []
  else
    match scanFor matchUseDbAt l with
    | some v => [⟨.DATABASE, ⟨v⟩, i⟩]
    | none =>
      match scanFor matchUseSchemaAt l with
      | some v =>
        match splitOnChar '.' v with
        | [a, b] => [⟨.DATABASE, ⟨a⟩, i⟩, ⟨.SCHEMA, ⟨b⟩, i⟩]
        | _ => [⟨.SCHEMA, ⟨v⟩, i⟩]
      | none =>
        match scanFor matchUseWhAt l with
        | some v => [⟨.WAREHOUSE, ⟨v⟩, i⟩]
        | none =>
          match scanFor matchUseRoleAt l with
          | some v => [⟨.ROLE, ⟨v⟩, i⟩]
          | none =>
            match scanFor matchUseShortAt l with
            | some v => [⟨.DATABASE, ⟨v⟩, i⟩]
            | none => []

/-- `parseUseCommands` (`src/sql-parser.ts`): split on newlines, process each
line in order with its index. -/
def parseUseCommands (text : String) : List UseCommand :=
  let lines := splitOnChar '\n' text.data
  (lines.enum).flatMap fun p => parseUseLine p.1 p.2

/-! ### The context classifier (`src/sql-parser.ts`, `parseContext`) -/

inductive SQLContext
  | SELECT_LIST
  | FROM_CLAUSE
  | WHERE_CLAUSE
  | TABLE_DOT
  | SCHEMA_DOT
  | GENERAL
deriving DecidableEq, Repr

structure ParsedContext where
  context : SQLContext
  currentWord : String
  tablesInScope : List String
  aliases : List (String × String)
  previousKeyword : Option String
deriving DecidableEq, Repr

/-- `extractCurrentWord`: the `[\w.]*` run ending at the cursor joined with
the `[\w.]*` run starting at it. -/
def extractCurrentWord (text : List Char) (position : Nat) : List Char :=
  let before := text.take position
  let after := text.drop position
  ((before.reverse.takeWhile isWordDotChar).reverse) ++ (after.takeWhile isWordDotChar)

/-- The trailing-dot test and capture `(\w+)\.\s*$` of `parseContext`:
read from the end, optional whitespace, a dot, then the maximal nonempty
word run before it (returned in source order, original case). -/
def trailingDotIdent (before : List Char) : Option (List Char) :=
  let rev1 := before.reverse.dropWhile isSpaceChar
  match rev1 with
  | '.' :: rest =>
    let w := rest.takeWhile isWordChar
    if w.isEmpty then none else some w.reverse
  | _ => none

/-- Word-boundary test `\b` before a word character, given the character
preceding the current position (`none` at the start of the text). -/
def atWordBoundary (prev : Option Char) : Bool :=
  match prev with
  | none => true
  | some c => !isWordChar c

/-- The optional alias group `(?:\s+(?:as\s+)?(\w+))?` of the FROM/JOIN
patterns: whitespace, an optional `as` + whitespace, then the captured word.
When `as` is not followed by whitespace and a word, regex backtracking drops
the optional `as` group and captures the word directly — including the word
`as` itself. -/
def matchAliasPart (s : List Char) : Option (List Char × List Char) :=
  (matchRun1 isSpaceChar s).bind fun pr1 =>
  match (matchLitCI ('a' :: 's' :: []) pr1.2).bind (fun s2 =>
      (matchRun1 isSpaceChar s2).bind fun pr2 => matchRun1 isWordChar pr2.2) with
  | some pr3 => some (pr3.1, pr3.2)
  | none => (matchRun1 isWordChar pr1.2).map fun pr => (pr.1, pr.2)

/-- One attempt of `\b<kw>\s+([\w.]+)(?:\s+(?:as\s+)?(\w+))?` at the current
position (without the leading boundary, which the scanner checks): returns
(table capture, optional alias capture, rest after the match). -/
def matchTableAliasAt (kw : List Char) (s : List Char) :
    Option (List Char × Option (List Char) × List Char) :=
  (matchLitCI kw s).bind fun s1 =>
  (matchRun1 isSpaceChar s1).bind fun pr1 =>
  (matchRun1 isWordDotChar pr1.2).bind fun pr2 =>
  match matchAliasPart pr2.2 with
  | some pr3 => some (pr2.1, some pr3.1, pr3.2)
  | none => some (pr2.1, none, pr2.2)

/-- The repeated `exec` loop of a global FROM/JOIN regex: scan left to right,
at word boundaries only, and restart after the end of each match (matches do
not overlap).  `prev` carries the character before the current position for
the `\b` test; the fuel is bounded by the list length (each step consumes at
least one character), so `execTA` below never exhausts it. -/
def execTAAux (kw : List Char) : Nat → Option Char → List Char →
    List (List Char × Option (List Char))
  | 0, _, _ => []
  | _ + 1, _, [] => []
  | fuel + 1, prev, c :: cs =>
    if atWordBoundary prev then
      match matchTableAliasAt kw (c :: cs) with
      | some (tbl, al, rest) =>
        let lastc := match al with | some a => a.getLastD c | none => tbl.getLastD c
        (tbl, al) :: execTAAux kw fuel (some lastc) rest
      | none => execTAAux kw fuel (some c) cs
    else execTAAux kw fuel (some c) cs

def execTA (kw : List Char) (s : List Char) : List (List Char × Option (List Char)) :=
  execTAAux kw (s.length + 1) none s

/-- The FROM branch's alias acceptance test (`src/sql-parser.ts` line 131):
note that `on` is absent from this list. -/
def fromAliasOk (al : String) : Bool :=
  !(al = ("where")) && !(al = ("join")) && !(al = ("left")) &&
  !(al = ("right")) && !(al = ("inner")) && !(al = ("outer"))

/-- The JOIN branch's alias acceptance test (`src/sql-parser.ts` line 145):
this list additionally contains `on`. -/
def joinAliasOk (al : String) : Bool :=
  !(al = ("on")) && !(al = ("where")) && !(al = ("join")) && !(al = ("left")) &&
  !(al = ("right")) && !(al = ("inner")) && !(al = ("outer"))

/-- The loop body shared by the FROM and JOIN `while` loops: push the table,
and if an accepted alias was captured, record it in the alias map and push
it too. -/
def taStep (aliasOk : String → Bool) (acc : List String × List (String × String))
    (m : List Char × Option (List Char)) : List String × List (String × String) :=
  let tableName : String := ⟨m.1⟩
  let tables := acc.1 ++ [tableName]
  match m.2 with
  | some al =>
    let alS : String := ⟨al⟩
    if aliasOk alS then (tables ++ [alS], jsSet alS tableName acc.2)
    else (tables, acc.2)
  | none => (tables, acc.2)

/-- `extractTablesAndAliases`: both regexes run over the lower-cased text
(so every capture is lower-case); the FROM loop runs first, then the JOIN
loop continues on the same accumulators. -/
def extractTablesAndAliases (text : List Char) : List String × List (String × String) :=
  let tl := text.map lowChar
  let fromMatches := execTA ('f' :: 'r' :: 'o' :: 'm' :: []) tl
  let joinMatches := execTA ('j' :: 'o' :: 'i' :: 'n' :: []) tl
  let acc1 := fromMatches.foldl (taStep fromAliasOk) ([], [])
  joinMatches.foldl (taStep joinAliasOk) acc1

/-- Helper for `fromJoinTrailing`: in the reversed text, the reversed keyword
must appear here, followed (in reverse) by a non-word character or the start
of the text (the `\b`). -/
def revKwAt (rkw : List Char) (rest : List Char) : Bool :=
  rkw.isPrefixOf rest &&
    (match rest.drop rkw.length with
     | [] => true
     | c :: _ => !isWordChar c)

/-- The FROM-clause test `\b(from|join)\s+[^,;\s]*$`: reading from the end,
the maximal run free of commas, semicolons and whitespace, preceded by at
least one whitespace character, preceded by `from` or `join` at a word
boundary.  (The trailing run is forced to be maximal: a shorter one would
have a clean character where the `\s+` must end.) -/
def fromJoinTrailing (tl : List Char) : Bool :=
  let rev := tl.reverse
  let afterTail := rev.dropWhile (fun c => !(c = ',' || c = ';' || isSpaceChar c))
  match afterTail with
  | [] => false
  | c :: _ =>
    if isSpaceChar c then
      let rest := afterTail.dropWhile isSpaceChar
      revKwAt ('m' :: 'o' :: 'r' :: 'f' :: []) rest ||
        revKwAt ('n' :: 'i' :: 'o' :: 'j' :: []) rest
    else false

/-- Boundary after a word: end of text or a non-word character. -/
def wordEndOk : List Char → Bool
  | [] => true
  | c :: _ => !isWordChar c

/-- `\b<w>\b` membership test (`.test`): scan every position, checking the
boundary on both sides. -/
def testWord (w : List Char) : Option Char → List Char → Bool
  | _, [] => false
  | prev, c :: cs =>
    (atWordBoundary prev && w.isPrefixOf (c :: cs) && wordEndOk ((c :: cs).drop w.length)) ||
      testWord w (some c) cs

/-- JS `lastIndexOf` as the suffix starting at the last occurrence of `w`. -/
def suffixFromLast (w : List Char) : List Char → Option (List Char)
  | [] => none
  | c :: cs =>
    match suffixFromLast w cs with
    | some r => some r
    | none => if w.isPrefixOf (c :: cs) then some (c :: cs) else none

/-- `<w1>\s+<w2>` at the current position (case-insensitive). -/
def matchSeqCI (w1 w2 : List Char) (s : List Char) : Bool :=
  match matchLitCI w1 s with
  | none => false
  | some s1 =>
    match matchRun1 isSpaceChar s1 with
    | none => false
    | some pr => (matchLitCI w2 pr.2).isSome

/-- One attempt of `(group\s+by|order\s+by|having)` at the current position. -/
def matchGOHAt (s : List Char) : Bool :=
  (matchSeqCI ('g' :: 'r' :: 'o' :: 'u' :: 'p' :: []) ('b' :: 'y' :: []) s) ||
  (matchSeqCI ('o' :: 'r' :: 'd' :: 'e' :: 'r' :: []) ('b' :: 'y' :: []) s) ||
  (matchLitCI ('h' :: 'a' :: 'v' :: 'i' :: 'n' :: 'g' :: []) s).isSome

/-- `.test` of `(group\s+by|order\s+by|having)`: any position matches. -/
def testGOH : List Char → Bool
  | [] => false
  | c :: cs => matchGOHAt (c :: cs) || testGOH cs

/-- The WHERE-context condition of `parseContext` (lines 59-61). -/
def whereContextCond (tl : List Char) : Bool :=
  testWord ('w' :: 'h' :: 'e' :: 'r' :: 'e' :: []) none tl &&
    !(testGOH ((suffixFromLast ('w' :: 'h' :: 'e' :: 'r' :: 'e' :: []) tl).getD tl))

/-- The SELECT-context condition of `parseContext` (line 64). -/
def selectContextCond (tl : List Char) : Bool :=
  testWord ('s' :: 'e' :: 'l' :: 'e' :: 'c' :: 't' :: []) none tl &&
    !(testWord ('f' :: 'r' :: 'o' :: 'm' :: []) none tl)

/-- JS `split(/\s+/)` (used by `findPreviousKeyword`): pieces between maximal
whitespace runs, with an empty leading/trailing piece when the text starts or
ends with whitespace.  Fuel is bounded by the list length. -/
def jsSplitWsAux : Nat → List Char → List (List Char)
  | 0, _ => []
  | fuel + 1, l =>
    let tok := l.takeWhile (fun c => !isSpaceChar c)
    let rest := l.dropWhile (fun c => !isSpaceChar c)
    match rest with
    | [] => [tok]
    | _ :: t => tok :: jsSplitWsAux fuel (t.dropWhile isSpaceChar)

def pkKeywords : List String :=
  [("select"), ("from"), ("where"), ("join"), ("inner"), ("left"), ("right"),
   ("outer"), ("on"), ("group"), ("by"), ("order"), ("having"), ("as"),
   ("and"), ("or")]

/-- `findPreviousKeyword`: lower-case, split on whitespace, scan from the
end for the first token in the fixed keyword list. -/
def findPreviousKeyword (text : List Char) : Option String :=
  let words := jsSplitWsAux (text.length + 1) (text.map lowChar)
  ((words.reverse).find? fun w => pkKeywords.contains (⟨w⟩ : String)).map
    fun w => (⟨w⟩ : String)

/-- `parseContext` (`src/sql-parser.ts`, lines 23-75): classify the text
before the cursor, with the fixed precedence dot-pattern, FROM/JOIN, WHERE,
SELECT, otherwise GENERAL.  Note that tables and aliases are extracted from
the text *before* the cursor only. -/
def parseContext (text : String) (position : Nat) : ParsedContext :=
  let beforeCursor := text.data.take position
  let textLower := beforeCursor.map lowChar
  let currentWord : String := ⟨extractCurrentWord text.data position⟩
  let ta := extractTablesAndAliases beforeCursor
  let context :=
    match trailingDotIdent beforeCursor with
    | some ident0 =>
      let identifier : String := ⟨ident0.map lowChar⟩
      if jsHas identifier ta.2 then SQLContext.TABLE_DOT
      else if ta.1.any (fun t => containsSub identifier.data (jsToLower t).data) then
        SQLContext.TABLE_DOT
      else SQLContext.SCHEMA_DOT
    | none =>
      if fromJoinTrailing textLower then SQLContext.FROM_CLAUSE
      else if whereContextCond textLower then SQLContext.WHERE_CLAUSE
      else if selectContextCond textLower then SQLContext.SELECT_LIST
      else SQLContext.GENERAL
  ⟨context, currentWord, ta.1, ta.2, findPreviousKeyword beforeCursor⟩

/-! ### Catalog entities (`src/snowflake.ts`)

Only the fields that the cache operations under verification read are
embedded; the remaining fields of these interfaces are presentation-only
metadata (comments, owners, timestamps) never inspected by `SchemaCache`. -/

structure TableInfo where
  catalog : String
  schema : String
  name : String
deriving DecidableEq, Repr

structure ColumnInfo where
  catalog : String
  schema : String
  tableName : String
  columnName : String
deriving DecidableEq, Repr

structure ViewInfo where
  catalog : String
  schema : String
  name : String
deriving DecidableEq, Repr

structure WarehouseInfo where
  name : String
deriving DecidableEq, Repr

structure RoleInfo where
  name : String
deriving DecidableEq, Repr

structure UserInfo where
  name : String
  login_name : String
deriving DecidableEq, Repr

structure DatabaseInfo where
  name : String
deriving DecidableEq, Repr

/-! ### The schema cache (`src/schema-cache.ts`) -/

structure CachedTable where
  qualifiedName : String
  info : TableInfo
  columns : List ColumnInfo
deriving DecidableEq, Repr

structure CachedColumn where
  qualifiedName : String
  info : ColumnInfo
deriving DecidableEq, Repr

structure DDLCache where
  ddl : String
  fetchedAt : Nat
deriving DecidableEq, Repr

structure SchemaCache where
  tables : List (String × CachedTable)
  columns : List (String × CachedColumn)
  views : List (String × ViewInfo)
  schemas : List String
  ddlCache : List (String × DDLCache)
  tablesWithColumns : List String
  warehouses : List (String × WarehouseInfo)
  roles : List (String × RoleInfo)
  users : List (String × UserInfo)
  databases : List (String × DatabaseInfo)
  tableNameIndex : List (String × List String)
  columnNameIndex : List (String × List String)
deriving DecidableEq, Repr

def emptyCache : SchemaCache := ⟨[], [], [], [], [], [], [], [], [], [], [], []⟩

/-- `DDL_CACHE_TTL`: 24 hours in milliseconds. -/
def DDL_CACHE_TTL : Nat := 24 * 60 * 60 * 1000

/-- `makeQualifiedName`: dot-join and upper-case. -/
def makeQualifiedName (parts : List String) : String :=
  jsToUpper (String.intercalate (".") parts)

/-- The loop body of `loadTables`: set the table entry, collect its schema
name, and append to the table-name index. -/
def loadTablesStep (columnsByTable : List (String × List ColumnInfo))
    (acc : SchemaCache) (table : TableInfo) : SchemaCache :=
  let qualifiedName := makeQualifiedName [table.catalog, table.schema, table.name]
  let tableColumns := (jsGet qualifiedName columnsByTable).getD []
  let acc1 := { acc with
    tables := jsSet qualifiedName ⟨qualifiedName, table, tableColumns⟩ acc.tables }
  let acc2 := { acc1 with schemas := setAdd table.schema acc1.schemas }
  let lower := jsToLower table.name
  { acc2 with tableNameIndex := (jsSet lower
      ((jsGet lower acc2.tableNameIndex).getD [] ++ [qualifiedName]) acc2.tableNameIndex) }

/-- `loadTables`: group the columns by their table's qualified name, then
run the loop body over the tables.  Note that nothing is cleared first:
entries for tables not in this load survive. -/
def loadTables (st : SchemaCache) (tablesIn : List TableInfo)
    (columnsIn : List ColumnInfo) : SchemaCache :=
  let columnsByTable := columnsIn.foldl (fun m column =>
    let key := makeQualifiedName [column.catalog, column.schema, column.tableName]
    jsSet key ((jsGet key m).getD [] ++ [column]) m) []
  tablesIn.foldl (loadTablesStep columnsByTable) st

/-- The loop body of `loadColumns`: set the column entry and append to the
column-name index. -/
def loadColumnsStep (acc : SchemaCache) (column : ColumnInfo) : SchemaCache :=
  let qualifiedName := makeQualifiedName
    [column.catalog, column.schema, column.tableName, column.columnName]
  let acc1 := { acc with
    columns := jsSet qualifiedName ⟨qualifiedName, column⟩ acc.columns }
  let lower := jsToLower column.columnName
  { acc1 with columnNameIndex := (jsSet lower
      ((jsGet lower acc1.columnNameIndex).getD [] ++ [qualifiedName]) acc1.columnNameIndex) }

/-- `loadColumns`: set each column entry; nothing is cleared first. -/
def loadColumns (st : SchemaCache) (columnsIn : List ColumnInfo) : SchemaCache :=
  columnsIn.foldl loadColumnsStep st

/-- The loop body of `loadViews`. -/
def loadViewsStep (acc : SchemaCache) (view : ViewInfo) : SchemaCache :=
  { acc with views := (jsSet
      (makeQualifiedName [view.catalog, view.schema, view.name]) view acc.views) }

/-- `loadViews`: set each view entry; nothing is cleared first. -/
def loadViews (st : SchemaCache) (viewsIn : List ViewInfo) : SchemaCache :=
  viewsIn.foldl loadViewsStep st

/-- `loadWarehouses`: clears the category, then inserts each entry. -/
def loadWarehouses (st : SchemaCache) (ws : List WarehouseInfo) : SchemaCache :=
  { st with warehouses := ws.foldl (fun m w => jsSet (jsToUpper w.name) w m) [] }

/-- `loadRoles`: clears the category, then inserts each entry. -/
def loadRoles (st : SchemaCache) (rs : List RoleInfo) : SchemaCache :=
  { st with roles := rs.foldl (fun m r => jsSet (jsToUpper r.name) r m) [] }

/-- `loadUsers`: clears the category, then inserts each entry. -/
def loadUsers (st : SchemaCache) (us : List UserInfo) : SchemaCache :=
  { st with users := us.foldl (fun m u => jsSet (jsToUpper u.name) u m) [] }

/-- `loadDatabases`: clears the category, then inserts each entry. -/
def loadDatabases (st : SchemaCache) (ds : List DatabaseInfo) : SchemaCache :=
  { st with databases := ds.foldl (fun m d => jsSet (jsToUpper d.name) d m) [] }

/-- JS `s.endsWith(suffix)`. -/
def jsEndsWith (sfx s : String) : Bool := sfx.data.isSuffixOf s.data

/-- `getTable`: exact upper-cased match, then suffix scan, then the
case-insensitive bare-name index (first match wins). -/
def getTable (st : SchemaCache) (name : String) : Option CachedTable :=
  let upperName := jsToUpper name
  match jsGet upperName st.tables with
  | some t => some t
  | none =>
    match st.tables.find? (fun p =>
        jsEndsWith (⟨'.' :: upperName.data⟩) p.1 || p.1 = upperName) with
    | some p => some p.2
    | none =>
      let segs := splitOnChar '.' name.data
      let lastSeg := segs.getLastD []
      let lowerName : String :=
        if lastSeg.isEmpty then jsToLower name else ⟨lastSeg.map lowChar⟩
      match jsGet lowerName st.tableNameIndex with
      | some (m :: _) => jsGet m st.tables
      | _ => none

def getTableColumns (st : SchemaCache) (tableName : String) : List ColumnInfo :=
  match getTable st tableName with
  | some t => t.columns
  | none => []

/-- The push-then-break loop shared by `searchTables`/`searchColumns`:
collect entries satisfying the predicate in map insertion order, stopping
once the budget is exhausted (a budget of 0 still admits one result, as in
the source, which breaks only after pushing). -/
def searchLoop {α : Type} (pred : α → Bool) : Nat → List (String × α) → List α
  | _, [] => []
  | limit, (_, v) :: rest =>
    if pred v then
      if limit ≤ 1 then [v] else v :: searchLoop pred (limit - 1) rest
    else searchLoop pred limit rest

/-- `searchTables` (default limit 50 at call sites): qualified name contains
the prefix, or bare name starts with it, case-insensitively. -/
def searchTables (st : SchemaCache) (pre : String) (limit : Nat) : List CachedTable :=
  let lowerPre := jsToLower pre
  searchLoop (fun t =>
    containsSub lowerPre.data (jsToLower t.qualifiedName).data ||
      lowerPre.data.isPrefixOf (jsToLower t.info.name).data) limit st.tables

/-- `searchColumns` with a nonempty table context: restrict to columns whose
derived table-qualified name is in the lower-cased context set. -/
def colMatchCtx (lowerPre : String) (tableLookup : List String) (c : CachedColumn) : Bool :=
  tableLookup.contains
      (jsToLower (makeQualifiedName [c.info.catalog, c.info.schema, c.info.tableName])) &&
    lowerPre.data.isPrefixOf (jsToLower c.info.columnName).data

def colMatchNoCtx (lowerPre : String) (c : CachedColumn) : Bool :=
  lowerPre.data.isPrefixOf (jsToLower c.info.columnName).data

/-- `searchColumns`: an empty or absent table context searches all columns. -/
def searchColumns (st : SchemaCache) (pre : String) (tableContext : Option (List String))
    (limit : Nat) : List CachedColumn :=
  let lowerPre := jsToLower pre
  match tableContext with
  | some tc =>
    if tc.isEmpty then searchLoop (colMatchNoCtx lowerPre) limit st.columns
    else searchLoop (colMatchCtx lowerPre (tc.map jsToLower)) limit st.columns
  | none => searchLoop (colMatchNoCtx lowerPre) limit st.columns

/-- The default JS string comparator, as a boolean lexicographic `≤` on the
character sequences (code-unit order; these are ASCII strings). -/
def listCharLe : List Char → List Char → Bool
  | [], _ => true
  | _ :: _, [] => false
  | a :: as, b :: bs =>
    if a.toNat < b.toNat then true
    else if b.toNat < a.toNat then false
    else listCharLe as bs

def strLeB (a b : String) : Bool := listCharLe a.data b.data

/-- Insertion step of `jsSortStrings`. -/
def insertSorted (x : String) : List String → List String
  | [] => [x]
  | y :: ys => if strLeB x y then x :: y :: ys else y :: insertSorted x ys

/-- JS `Array.prototype.sort()` on strings: sorts ascending by the default
lexicographic comparator (insertion sort; equal-comparing strings are
identical, so the order of the result does not depend on the algorithm). -/
def jsSortStrings : List String → List String
  | [] => []
  | x :: xs => insertSorted x (jsSortStrings xs)

/-- `getAllSchemas`: `Array.from(set).sort()`. -/
def getAllSchemas (st : SchemaCache) : List String := jsSortStrings st.schemas

/-- `searchSchemas`: filter by lower-cased prefix, then sort. -/
def searchSchemas (st : SchemaCache) (pre : String) : List String :=
  jsSortStrings (st.schemas.filter fun s =>
    (jsToLower pre).data.isPrefixOf (jsToLower s).data)

/-- `tableExists`. -/
def tableExists (st : SchemaCache) (name : String) : Bool := (getTable st name).isSome

/-- `columnExists`. -/
def columnExists (st : SchemaCache) (tableName columnName : String) : Bool :=
  match getTable st tableName with
  | none => false
  | some t => t.columns.any fun col => jsToLower col.columnName = jsToLower columnName

/-- `hasDDL`: absent, or present and unexpired; an expired entry is evicted
as a side effect and reported absent.  `now - fetchedAt > TTL` is the
source's expiry test (truncated subtraction agrees with JS here since a
negative age is never greater than the TTL). -/
def hasDDL (st : SchemaCache) (qualifiedName : String) (now : Nat) : Bool × SchemaCache :=
  match jsGet (jsToUpper qualifiedName) st.ddlCache with
  | none => (false, st)
  | some cached =>
    if now - cached.fetchedAt > DDL_CACHE_TTL then
      (false, { st with ddlCache := jsDelete (jsToUpper qualifiedName) st.ddlCache })
    else (true, st)

/-- `getDDL`: undefined once `hasDDL` reports absent (which also evicts). -/
def getDDL (st : SchemaCache) (qualifiedName : String) (now : Nat) :
    Option String × SchemaCache :=
  let pr := hasDDL st qualifiedName now
  if !pr.1 then (none, pr.2)
  else ((jsGet (jsToUpper qualifiedName) pr.2.ddlCache).map (·.ddl), pr.2)

/-- `cacheDDL`: store under the upper-cased name with the current time. -/
def cacheDDL (st : SchemaCache) (qualifiedName ddl : String) (now : Nat) : SchemaCache :=
  { st with ddlCache := jsSet (jsToUpper qualifiedName) ⟨ddl, now⟩ st.ddlCache }

/-- `hasColumns`. -/
def hasColumns (st : SchemaCache) (qualifiedName : String) : Bool :=
  st.tablesWithColumns.contains (jsToUpper qualifiedName)

inductive LoadError
  | invalidName (name : String)
  | fetchFailed
deriving DecidableEq, Repr

/-- `ensureColumnsLoaded`: returns (outcome, post-state, whether the fetch
callback was invoked).  Already-loaded tables return immediately; a name
without exactly three dot-separated segments fails fast; a failing fetch
re-throws with no state mutation (all mutations happen after the callback
returns); a successful fetch stores the columns, indexes them, updates the
table's column list when the table is cached, and marks the table loaded. -/
def ensureColumnsLoaded (st : SchemaCache) (qualifiedName : String)
    (fetcher : String → String → String → Except Unit (List ColumnInfo)) :
    Except LoadError Unit × SchemaCache × Bool :=
  let upperName := jsToUpper qualifiedName
  if st.tablesWithColumns.contains upperName then (Except.ok (), st, false)
  else
    match splitOnChar '.' upperName.data with
    | [db, schemaSeg, tableSeg] =>
      match fetcher ⟨db⟩ ⟨schemaSeg⟩ ⟨tableSeg⟩ with
      | .error _ => (Except.error LoadError.fetchFailed, st, true)
      | .ok columnsFetched =>
        let st1 := columnsFetched.foldl (fun acc column =>
          let colQN := makeQualifiedName
            [column.catalog, column.schema, column.tableName, column.columnName]
          let acc := { acc with columns := jsSet colQN ⟨colQN, column⟩ acc.columns }
          let lower := jsToLower column.columnName
          { acc with columnNameIndex := (jsSet lower
              ((jsGet lower acc.columnNameIndex).getD [] ++ [colQN]) acc.columnNameIndex) }) st
        let st2 := match jsGet upperName st1.tables with
          | some tobj =>
            { st1 with tables := jsSet upperName { tobj with columns := columnsFetched } st1.tables }
          | none => st1
        (Except.ok (), { st2 with tablesWithColumns := setAdd upperName st2.tablesWithColumns },
          true)
    | _ => (Except.error (LoadError.invalidName qualifiedName), st, false)

/-- A concrete fetch callback that succeeds with one column (used to
instantiate hypotheses at concrete inputs). -/
def cFetchOk : String → String → String → Except Unit (List ColumnInfo) :=
  fun _ _ _ => Except.ok [⟨("DB"), ("S"), ("T"), ("C1")⟩]

/-- A concrete fetch callback that always fails. -/
def cFetchFail : String → String → String → Except Unit (List ColumnInfo) :=
  fun _ _ _ => Except.error ()

/-! ## Helper lemmas about the JS map/set model -/

lemma jsGet_jsSet_self {α : Type} (k : String) (v : α) (m : List (String × α)) :
    jsGet k (jsSet k v m) = some v := by
  induction m with
  | nil => simp [jsSet, jsGet]
  | cons p rest ih =>
    obtain ⟨k', v'⟩ := p
    by_cases h : k' = k
    · simp [jsSet, h, jsGet]
    · simp [jsSet, h, jsGet, ih]

lemma jsGet_jsSet_ne {α : Type} (k k' : String) (v : α) (m : List (String × α))
    (h : k' ≠ k) : jsGet k' (jsSet k v m) = jsGet k' m := by
  induction m with
  | nil => simp [jsSet, jsGet, Ne.symm h]
  | cons p rest ih =>
    obtain ⟨k'', v''⟩ := p
    by_cases hk : k'' = k
    · subst hk
      simp [jsSet, jsGet, Ne.symm h]
    · simp [jsSet, hk, jsGet, ih]

lemma jsGet_none_of_not_mem {α : Type} (k : String) (m : List (String × α))
    (h : k ∉ m.map Prod.fst) : jsGet k m = none := by
  induction m with
  | nil => simp [jsGet]
  | cons p rest ih =>
    obtain ⟨k', v'⟩ := p
    have h1 : k' ≠ k := fun hh => h (by simp [hh])
    have h2 : k ∉ rest.map Prod.fst := fun hh => h (by simp [hh])
    simp [jsGet, h1, ih h2]

lemma mem_keys_jsSet {α : Type} (a k : String) (v : α) (m : List (String × α)) :
    a ∈ (jsSet k v m).map Prod.fst ↔ a ∈ m.map Prod.fst ∨ a = k := by
  induction m with
  | nil => simp [jsSet]
  | cons p rest ih =>
    obtain ⟨k', v'⟩ := p
    by_cases h : k' = k
    · subst h
      simp [jsSet]
      tauto
    · simp [jsSet, h, ih]
      tauto

lemma nodup_keys_jsSet {α : Type} (k : String) (v : α) (m : List (String × α))
    (h : (m.map Prod.fst).Nodup) : ((jsSet k v m).map Prod.fst).Nodup := by
  induction m with
  | nil => simp [jsSet]
  | cons p rest ih =>
    obtain ⟨k', v'⟩ := p
    rw [List.map_cons, List.nodup_cons] at h
    by_cases hk : k' = k
    · subst hk
      have hset : jsSet k' v ((k', v') :: rest) = (k', v) :: rest := by simp [jsSet]
      rw [hset, List.map_cons, List.nodup_cons]
      exact h
    · simp only [jsSet, hk, if_false, List.map_cons, List.nodup_cons]
      refine ⟨?_, ih h.2⟩
      intro hmem
      rcases (mem_keys_jsSet k' k v rest).1 hmem with hin | heq
      · exact h.1 hin
      · exact hk heq

lemma jsGet_jsDelete_self {α : Type} (k : String) (m : List (String × α))
    (h : (m.map Prod.fst).Nodup) : jsGet k (jsDelete k m) = none := by
  induction m with
  | nil => simp [jsDelete, jsGet]
  | cons p rest ih =>
    obtain ⟨k', v'⟩ := p
    rw [List.map_cons, List.nodup_cons] at h
    by_cases hk : k' = k
    · subst hk
      simp only [jsDelete, if_pos rfl]
      exact jsGet_none_of_not_mem k' rest h.1
    · simp [jsDelete, hk, jsGet, ih h.2]

lemma contains_setAdd_self (k : String) (s : List String) :
    (setAdd k s).contains k = true := by
  by_cases h : s.contains k
  · rw [setAdd, if_pos h]
    exact h
  · rw [setAdd, if_neg h]
    simp [List.elem_iff]

/-! ## C1: `USE DATABASE` sets the database and resets the schema -/

/-- C1.  For every document context record, a `USE DATABASE` command applied
via `updateContext` sets `database` to the upper-cased value and resets
`schema` to null; and the sequence parsed from the three-line text
`USE DATABASE X / USE SCHEMA Y / USE DATABASE Z`, applied to a fresh
context, ends with `database = Z`, `schema = null`. -/
theorem c1_use_database_sets_and_resets_schema :
    (∀ (ctx : SessionContext) (v : String) (ln now : Nat),
      updateContext ctx [⟨UseCommandType.DATABASE, v, ln⟩] now =
        { ctx with database := some (jsToUpper v), schema := none, lastUpdated := now }) ∧
    updateContext (freshContext ("doc") 0)
        (parseUseCommands ("USE DATABASE X\nUSE SCHEMA Y\nUSE DATABASE Z")) 1 =
      ⟨("doc"), some ("Z"), none, none, none, 1⟩ := by
  constructor
  · intro ctx v ln now
    rfl
  · decide

/-! ## C4: the DDL cache respects its 24-hour TTL -/

/-- C4.  Caching DDL under one spelling and reading it back under any
spelling with the same upper-casing returns the cached text while the age
is within the TTL; once the age exceeds the TTL, `getDDL` returns none,
`hasDDL` returns false, and the expired entry is evicted.  The no-duplicate
hypothesis on the stored keys is an invariant of every reachable cache (a
JS `Map` cannot hold a key twice). -/
theorem c4_ddl_ttl (st : SchemaCache) (qn qn' ddl : String) (t now : Nat)
    (hsame : jsToUpper qn = jsToUpper qn')
    (hnodup : (st.ddlCache.map Prod.fst).Nodup) :
    (now - t ≤ DDL_CACHE_TTL →
      (getDDL (cacheDDL st qn ddl t) qn' now).1 = some ddl) ∧
    (DDL_CACHE_TTL < now - t →
      (getDDL (cacheDDL st qn ddl t) qn' now).1 = none ∧
      (hasDDL (cacheDDL st qn ddl t) qn' now).1 = false ∧
      jsGet (jsToUpper qn') (hasDDL (cacheDDL st qn ddl t) qn' now).2.ddlCache = none) := by
  have hget : jsGet (jsToUpper qn') (cacheDDL st qn ddl t).ddlCache =
      some ⟨ddl, t⟩ := by
    simp only [cacheDDL, hsame]
    exact jsGet_jsSet_self (jsToUpper qn') ⟨ddl, t⟩ st.ddlCache
  constructor
  · intro hle
    have hnotexp : ¬ (now - t > DDL_CACHE_TTL) := by omega
    simp [getDDL, hasDDL, hget, hnotexp, hget]
  · intro hgt
    have hexp : now - t > DDL_CACHE_TTL := hgt
    refine ⟨?_, ?_, ?_⟩
    · simp [getDDL, hasDDL, hget, hexp]
    · simp [hasDDL, hget, hexp]
    · simp only [hasDDL, hget, if_pos hexp]
      simp only [cacheDDL, hsame]
      exact jsGet_jsDelete_self (jsToUpper qn')
        (jsSet (jsToUpper qn') ⟨ddl, t⟩ st.ddlCache)
        (nodup_keys_jsSet _ _ _ hnodup)

/-! ## C3: lazy column loading error behavior and idempotence -/

lemma ensure_already_loaded (st : SchemaCache) (qn : String)
    (fetcher : String → String → String → Except Unit (List ColumnInfo))
    (h : st.tablesWithColumns.contains (jsToUpper qn) = true) :
    ensureColumnsLoaded st qn fetcher = (Except.ok (), st, false) := by
  unfold ensureColumnsLoaded
  simp only [h, if_true]

lemma ensure_bad_name (st : SchemaCache) (qn : String)
    (fetcher : String → String → String → Except Unit (List ColumnInfo))
    (h : st.tablesWithColumns.contains (jsToUpper qn) = false)
    (parts : List (List Char)) (hp : splitOnChar '.' (jsToUpper qn).data = parts)
    (hnot : ∀ a b c, parts ≠ [a, b, c]) :
    ensureColumnsLoaded st qn fetcher =
      (Except.error (LoadError.invalidName qn), st, false) := by
  unfold ensureColumnsLoaded
  rcases parts with _ | ⟨a, _ | ⟨b, _ | ⟨c, _ | ⟨d, ds⟩⟩⟩⟩
  · simp only [h, Bool.false_eq_true, if_false, hp]
  · simp only [h, Bool.false_eq_true, if_false, hp]
  · simp only [h, Bool.false_eq_true, if_false, hp]
  · exact absurd rfl (hnot a b c)
  · simp only [h, Bool.false_eq_true, if_false, hp]

lemma ensure_fetch_error (st : SchemaCache) (qn : String)
    (fetcher : String → String → String → Except Unit (List ColumnInfo))
    (h : st.tablesWithColumns.contains (jsToUpper qn) = false)
    (db sc tb : List Char) (hp : splitOnChar '.' (jsToUpper qn).data = [db, sc, tb])
    (e : Unit) (hf : fetcher ⟨db⟩ ⟨sc⟩ ⟨tb⟩ = Except.error e) :
    ensureColumnsLoaded st qn fetcher = (Except.error LoadError.fetchFailed, st, true) := by
  unfold ensureColumnsLoaded
  simp only [h, Bool.false_eq_true, if_false, hp, hf]

lemma ensure_fetch_ok (st : SchemaCache) (qn : String)
    (fetcher : String → String → String → Except Unit (List ColumnInfo))
    (h : st.tablesWithColumns.contains (jsToUpper qn) = false)
    (db sc tb : List Char) (hp : splitOnChar '.' (jsToUpper qn).data = [db, sc, tb])
    (cols : List ColumnInfo) (hf : fetcher ⟨db⟩ ⟨sc⟩ ⟨tb⟩ = Except.ok cols) :
    ∃ st', ensureColumnsLoaded st qn fetcher = (Except.ok (), st', true) ∧
      st'.tablesWithColumns.contains (jsToUpper qn) = true := by
  unfold ensureColumnsLoaded
  simp only [h, Bool.false_eq_true, if_false, hp, hf]
  exact ⟨_, rfl, contains_setAdd_self _ _⟩

/-- C3.  `ensureColumnsLoaded` fails iff the table is not already marked
loaded and either the upper-cased name does not split into exactly three
dot-separated segments or the (then invoked) fetch callback fails; a failing
fetch returns the state unchanged — in particular no loaded mark is added —
while having invoked the callback, so a retry re-invokes it; and after any
successful call, a subsequent call for the same name succeeds without
invoking the new callback and without changing the state. -/
theorem c3_ensure_columns_loaded_spec (st : SchemaCache) (qn : String)
    (fetcher : String → String → String → Except Unit (List ColumnInfo)) :
    ((ensureColumnsLoaded st qn fetcher).1 ≠ Except.ok () ↔
      (st.tablesWithColumns.contains (jsToUpper qn) = false ∧
        (match splitOnChar '.' (jsToUpper qn).data with
         | [db, sc, tb] => (fetcher ⟨db⟩ ⟨sc⟩ ⟨tb⟩).isOk = false
         | _ => True))) ∧
    (∀ db sc tb, splitOnChar '.' (jsToUpper qn).data = [db, sc, tb] →
      st.tablesWithColumns.contains (jsToUpper qn) = false →
      (fetcher ⟨db⟩ ⟨sc⟩ ⟨tb⟩).isOk = false →
      (ensureColumnsLoaded st qn fetcher).2.1 = st ∧
        (ensureColumnsLoaded st qn fetcher).2.2 = true) ∧
    ((ensureColumnsLoaded st qn fetcher).1 = Except.ok () →
      ∀ fetcher',
        ensureColumnsLoaded (ensureColumnsLoaded st qn fetcher).2.1 qn fetcher' =
          (Except.ok (), (ensureColumnsLoaded st qn fetcher).2.1, false)) := by
  by_cases hc : st.tablesWithColumns.contains (jsToUpper qn) = true
  · have he := ensure_already_loaded st qn fetcher hc
    refine ⟨?_, ?_, ?_⟩
    · rw [he]
      refine ⟨fun h' => absurd rfl h', ?_⟩
      rintro ⟨hfalse, -⟩
      rw [hc] at hfalse
      exact absurd hfalse (by simp)
    · intro db sc tb hsplit hfalse
      rw [hc] at hfalse
      exact absurd hfalse (by simp)
    · intro _ fetcher'
      rw [he]
      exact ensure_already_loaded st qn fetcher' hc
  · have hcf : st.tablesWithColumns.contains (jsToUpper qn) = false := by
      simpa using hc
    rcases hp : splitOnChar '.' (jsToUpper qn).data with _ | ⟨db, _ | ⟨sc, _ | ⟨tb, _ | ⟨x, xs⟩⟩⟩⟩
    · have he := ensure_bad_name st qn fetcher hcf _ hp (by intro a b c; simp)
      refine ⟨?_, ?_, ?_⟩
      · rw [he]
        exact ⟨fun _ => ⟨hcf, trivial⟩, fun _ => by simp⟩
      · intro a b c hs
        simp at hs
      · intro hok
        rw [he] at hok
        exact absurd hok (by simp)
    · have he := ensure_bad_name st qn fetcher hcf _ hp (by intro a b c; simp)
      refine ⟨?_, ?_, ?_⟩
      · rw [he]
        exact ⟨fun _ => ⟨hcf, trivial⟩, fun _ => by simp⟩
      · intro a b c hs
        simp at hs
      · intro hok
        rw [he] at hok
        exact absurd hok (by simp)
    · have he := ensure_bad_name st qn fetcher hcf _ hp (by intro a b c; simp)
      refine ⟨?_, ?_, ?_⟩
      · rw [he]
        exact ⟨fun _ => ⟨hcf, trivial⟩, fun _ => by simp⟩
      · intro a b c hs
        simp at hs
      · intro hok
        rw [he] at hok
        exact absurd hok (by simp)
    · cases hf : fetcher ⟨db⟩ ⟨sc⟩ ⟨tb⟩ with
      | error e =>
        have he := ensure_fetch_error st qn fetcher hcf db sc tb hp e hf
        refine ⟨?_, ?_, ?_⟩
        · rw [he]
          exact ⟨fun _ => ⟨hcf, by simp [hf, Except.isOk, Except.toBool]⟩, fun _ => by simp⟩
        · intro db' sc' tb' hsplit _ _
          simp [he]
        · intro hok
          rw [he] at hok
          exact absurd hok (by simp)
      | ok cols =>
        obtain ⟨st', he, hmark⟩ := ensure_fetch_ok st qn fetcher hcf db sc tb hp cols hf
        refine ⟨?_, ?_, ?_⟩
        · rw [he]
          simp only [ne_eq, not_true_eq_false, false_iff, not_and]
          intro _
          simp [hf, Except.isOk, Except.toBool]
        · intro db' sc' tb' hsplit _ hbad
          obtain ⟨h1, h2, h3⟩ : db = db' ∧ sc = sc' ∧ tb = tb' := by simpa using hsplit
          subst h1; subst h2; subst h3
          rw [hf] at hbad
          simp [Except.isOk, Except.toBool] at hbad
        · intro _ fetcher'
          rw [he]
          exact ensure_already_loaded st' qn fetcher' hmark
    · have he := ensure_bad_name st qn fetcher hcf _ hp (by intro a b c; simp)
      refine ⟨?_, ?_, ?_⟩
      · rw [he]
        exact ⟨fun _ => ⟨hcf, trivial⟩, fun _ => by simp⟩
      · intro a b c hs
        simp at hs
      · intro hok
        rw [he] at hok
        exact absurd hok (by simp)

/-- C3 witness: a failing fetch leaves the empty cache unchanged with the
callback invoked, and a second call after a successful load is a no-op that
does not invoke the new callback. -/
theorem c3_ensure_columns_loaded_witness :
    ((ensureColumnsLoaded emptyCache ("db.s.t") cFetchFail).2.1 = emptyCache ∧
      (ensureColumnsLoaded emptyCache ("db.s.t") cFetchFail).2.2 = true) ∧
    ensureColumnsLoaded (ensureColumnsLoaded emptyCache ("db.s.t") cFetchOk).2.1
        ("db.s.t") cFetchFail =
      (Except.ok (), (ensureColumnsLoaded emptyCache ("db.s.t") cFetchOk).2.1, false) :=
  ⟨(c3_ensure_columns_loaded_spec emptyCache ("db.s.t") cFetchFail).2.1
      (('D' : Char) :: 'B' :: []) (('S' : Char) :: []) (('T' : Char) :: [])
      (by decide) (by decide) (by decide),
   (c3_ensure_columns_loaded_spec emptyCache ("db.s.t") cFetchOk).2.2 (by decide) cFetchFail⟩

/-- C4 witness: concrete instantiation discharging all hypotheses. -/
theorem c4_ddl_ttl_witness :
    (getDDL (cacheDDL emptyCache ("db.s.t") ("CREATE TABLE T") 0) ("DB.S.T")
      DDL_CACHE_TTL).1 = some ("CREATE TABLE T") ∧
    (getDDL (cacheDDL emptyCache ("db.s.t") ("CREATE TABLE T") 0) ("DB.S.T")
      (DDL_CACHE_TTL + 1)).1 = none := by
  have h := c4_ddl_ttl emptyCache ("db.s.t") ("DB.S.T") ("CREATE TABLE T") 0
    DDL_CACHE_TTL (by decide) (by decide)
  have h2 := c4_ddl_ttl emptyCache ("db.s.t") ("DB.S.T") ("CREATE TABLE T") 0
    (DDL_CACHE_TTL + 1) (by decide) (by decide)
  exact ⟨h.1 (by omega), (h2.2 (by omega)).1⟩

/-! ## C5: bulk loads — which categories replace and which merge -/

lemma loadTables_tables_preserved (cbt : List (String × List ColumnInfo))
    (tablesIn : List TableInfo) :
    ∀ (st : SchemaCache) (k : String),
      (∀ t ∈ tablesIn, makeQualifiedName [t.catalog, t.schema, t.name] ≠ k) →
      jsGet k ((tablesIn.foldl (loadTablesStep cbt) st).tables) = jsGet k st.tables := by
  induction tablesIn with
  | nil => intro st k _; rfl
  | cons t ts ih =>
    intro st k h
    rw [List.foldl_cons]
    rw [ih (loadTablesStep cbt st t) k (fun t' ht' => h t' (List.mem_cons_of_mem t ht'))]
    have hstep : (loadTablesStep cbt st t).tables =
        jsSet (makeQualifiedName [t.catalog, t.schema, t.name])
          ⟨makeQualifiedName [t.catalog, t.schema, t.name], t,
            (jsGet (makeQualifiedName [t.catalog, t.schema, t.name]) cbt).getD []⟩
          st.tables := rfl
    rw [hstep]
    exact jsGet_jsSet_ne _ k _ _ (Ne.symm (h t (List.mem_cons_self t ts)))

lemma loadColumns_columns_preserved (columnsIn : List ColumnInfo) :
    ∀ (st : SchemaCache) (k : String),
      (∀ c ∈ columnsIn,
        makeQualifiedName [c.catalog, c.schema, c.tableName, c.columnName] ≠ k) →
      jsGet k ((columnsIn.foldl loadColumnsStep st).columns) = jsGet k st.columns := by
  induction columnsIn with
  | nil => intro st k _; rfl
  | cons c cs ih =>
    intro st k h
    rw [List.foldl_cons]
    rw [ih (loadColumnsStep st c) k (fun c' hc' => h c' (List.mem_cons_of_mem c hc'))]
    have hstep : (loadColumnsStep st c).columns =
        jsSet (makeQualifiedName [c.catalog, c.schema, c.tableName, c.columnName])
          ⟨makeQualifiedName [c.catalog, c.schema, c.tableName, c.columnName], c⟩
          st.columns := rfl
    rw [hstep]
    exact jsGet_jsSet_ne _ k _ _ (Ne.symm (h c (List.mem_cons_self c cs)))

lemma loadViews_views_preserved (viewsIn : List ViewInfo) :
    ∀ (st : SchemaCache) (k : String),
      (∀ v ∈ viewsIn, makeQualifiedName [v.catalog, v.schema, v.name] ≠ k) →
      jsGet k ((viewsIn.foldl loadViewsStep st).views) = jsGet k st.views := by
  induction viewsIn with
  | nil => intro st k _; rfl
  | cons v vs ih =>
    intro st k h
    rw [List.foldl_cons]
    rw [ih (loadViewsStep st v) k (fun v' hv' => h v' (List.mem_cons_of_mem v hv'))]
    have hstep : (loadViewsStep st v).views =
        jsSet (makeQualifiedName [v.catalog, v.schema, v.name]) v st.views := rfl
    rw [hstep]
    exact jsGet_jsSet_ne _ k _ _ (Ne.symm (h v (List.mem_cons_self v vs)))

/-- C5 counterexample.  Loading `[T2]` into a cache already holding `T1`
leaves both tables present: the tables category does not then contain
exactly the entities passed in.  (The warehouses conjunct shows the
contrasting category that genuinely replaces.) -/
theorem c5_counterexample :
    ((loadTables (loadTables emptyCache [⟨("DB"), ("S"), ("T1")⟩] [])
        [⟨("DB"), ("S"), ("T2")⟩] []).tables.map Prod.fst) =
      [("DB.S.T1"), ("DB.S.T2")] ∧
    [("DB.S.T1"), ("DB.S.T2")] ≠ [("DB.S.T2")] ∧
    ((loadWarehouses (loadWarehouses emptyCache [⟨("W1")⟩]) [⟨("W2")⟩]).warehouses.map
        Prod.fst) = [("W2")] := by
  refine ⟨by decide, by decide, by decide⟩

/-- C5 as amended.  Warehouses, roles, users and databases are replaced
wholesale (the result is independent of the prior cache state), while
tables, columns and views are merged: an existing entry whose key is not
among the newly loaded qualified names keeps its exact value. -/
theorem c5_load_replacement_vs_merge :
    (∀ (st st' : SchemaCache) (ws : List WarehouseInfo),
      (loadWarehouses st ws).warehouses = (loadWarehouses st' ws).warehouses) ∧
    (∀ (st st' : SchemaCache) (rs : List RoleInfo),
      (loadRoles st rs).roles = (loadRoles st' rs).roles) ∧
    (∀ (st st' : SchemaCache) (us : List UserInfo),
      (loadUsers st us).users = (loadUsers st' us).users) ∧
    (∀ (st st' : SchemaCache) (ds : List DatabaseInfo),
      (loadDatabases st ds).databases = (loadDatabases st' ds).databases) ∧
    (∀ (st : SchemaCache) (tablesIn : List TableInfo) (columnsIn : List ColumnInfo)
        (k : String),
      (∀ t ∈ tablesIn, makeQualifiedName [t.catalog, t.schema, t.name] ≠ k) →
      jsGet k (loadTables st tablesIn columnsIn).tables = jsGet k st.tables) ∧
    (∀ (st : SchemaCache) (columnsIn : List ColumnInfo) (k : String),
      (∀ c ∈ columnsIn,
        makeQualifiedName [c.catalog, c.schema, c.tableName, c.columnName] ≠ k) →
      jsGet k (loadColumns st columnsIn).columns = jsGet k st.columns) ∧
    (∀ (st : SchemaCache) (viewsIn : List ViewInfo) (k : String),
      (∀ v ∈ viewsIn, makeQualifiedName [v.catalog, v.schema, v.name] ≠ k) →
      jsGet k (loadViews st viewsIn).views = jsGet k st.views) := by
  refine ⟨fun _ _ _ => rfl, fun _ _ _ => rfl, fun _ _ _ => rfl, fun _ _ _ => rfl,
    ?_, ?_, ?_⟩
  · intro st tablesIn columnsIn k h
    exact loadTables_tables_preserved _ tablesIn st k h
  · intro st columnsIn k h
    exact loadColumns_columns_preserved columnsIn st k h
  · intro st viewsIn k h
    exact loadViews_views_preserved viewsIn st k h

/-- C5 witness: the `T1` entry survives a later `loadTables` of `[T2]`. -/
theorem c5_load_witness :
    jsGet ("DB.S.T1")
        (loadTables (loadTables emptyCache [⟨("DB"), ("S"), ("T1")⟩] [])
          [⟨("DB"), ("S"), ("T2")⟩] []).tables =
      jsGet ("DB.S.T1") (loadTables emptyCache [⟨("DB"), ("S"), ("T1")⟩] []).tables :=
  c5_load_replacement_vs_merge.2.2.2.2.1
    (loadTables emptyCache [⟨("DB"), ("S"), ("T1")⟩] [])
    [⟨("DB"), ("S"), ("T2")⟩] [] ("DB.S.T1") (by decide)

/-! ## C10: schema results are sorted; table/column results keep insertion order -/

lemma charEq_of_toNat_eq {a b : Char} (h : a.toNat = b.toNat) : a = b :=
  Char.ext (UInt32.ext h)

lemma char_lt_iff_toNat (a b : Char) : a < b ↔ a.toNat < b.toNat := gt_iff_lt

lemma listCharLe_iff (x y : List Char) :
    listCharLe x y = true ↔ ¬ List.Lex (· < ·) y x := by
  induction x generalizing y with
  | nil =>
    cases y with
    | nil =>
      simp only [listCharLe, true_iff]
      intro h
      cases h
    | cons b bs =>
      simp only [listCharLe, true_iff]
      intro h
      cases h
  | cons a as ih =>
    cases y with
    | nil =>
      simp only [listCharLe, Bool.false_eq_true, false_iff, not_not]
      exact List.Lex.nil
    | cons b bs =>
      rcases Nat.lt_trichotomy (a.toNat) (b.toNat) with hlt | heq | hgt
      · simp only [listCharLe, if_pos hlt, true_iff]
        intro hlex
        cases hlex with
        | cons h => omega
        | rel h => exact absurd ((char_lt_iff_toNat b a).1 h) (by omega)
      · have hab : a = b := charEq_of_toNat_eq heq
        subst hab
        simp only [listCharLe, if_neg (by omega : ¬ a.toNat < a.toNat),
          if_neg (by omega : ¬ a.toNat < a.toNat)]
        rw [ih bs]
        constructor
        · intro hnot hlex
          cases hlex with
          | cons h => exact hnot h
          | rel h => exact absurd ((char_lt_iff_toNat a a).1 h) (by omega)
        · intro hnot hlex
          exact hnot (List.Lex.cons hlex)
      · simp only [listCharLe, if_neg (by omega : ¬ a.toNat < b.toNat), if_pos hgt,
          Bool.false_eq_true, false_iff, not_not]
        exact List.Lex.rel ((char_lt_iff_toNat b a).2 hgt)

lemma strLeB_iff_le (a b : String) : strLeB a b = true ↔ a ≤ b := by
  rw [String.le_iff_toList_le, ← not_lt]
  exact listCharLe_iff a.data b.data

lemma perm_insertSorted (x : String) (l : List String) :
    List.Perm (insertSorted x l) (x :: l) := by
  induction l with
  | nil => exact List.Perm.refl _
  | cons y ys ih =>
    cases hb : strLeB x y with
    | true =>
      simp only [insertSorted, hb, if_true]
      exact List.Perm.refl _
    | false =>
      simp only [insertSorted, hb, Bool.false_eq_true, if_false]
      exact (ih.cons y).trans (List.Perm.swap x y ys)

lemma sorted_insertSorted (x : String) (l : List String)
    (h : List.Sorted (· ≤ ·) l) : List.Sorted (· ≤ ·) (insertSorted x l) := by
  induction l with
  | nil => simp [insertSorted]
  | cons y ys ih =>
    rw [List.sorted_cons] at h
    cases hb : strLeB x y with
    | true =>
      have hxy : x ≤ y := (strLeB_iff_le x y).1 hb
      simp only [insertSorted, hb, if_true]
      rw [List.sorted_cons]
      refine ⟨?_, List.sorted_cons.2 h⟩
      intro b hbmem
      rcases List.mem_cons.1 hbmem with rfl | hbys
      · exact hxy
      · exact le_trans hxy (h.1 b hbys)
    | false =>
      have hyx : y ≤ x := by
        refine le_of_not_le fun hle => ?_
        rw [(strLeB_iff_le x y).2 hle] at hb
        exact absurd hb (by simp)
      simp only [insertSorted, hb, Bool.false_eq_true, if_false]
      rw [List.sorted_cons]
      refine ⟨?_, ih h.2⟩
      intro b hbmem
      rcases List.mem_cons.1 ((perm_insertSorted x ys).mem_iff.1 hbmem) with rfl | hbys
      · exact hyx
      · exact h.1 b hbys

lemma sorted_jsSortStrings (l : List String) :
    List.Sorted (· ≤ ·) (jsSortStrings l) := by
  induction l with
  | nil => simp [jsSortStrings]
  | cons x xs ih => exact sorted_insertSorted x (jsSortStrings xs) ih

lemma perm_jsSortStrings (l : List String) : List.Perm (jsSortStrings l) l := by
  induction l with
  | nil => exact List.Perm.refl _
  | cons x xs ih => exact (perm_insertSorted x (jsSortStrings xs)).trans (ih.cons x)

lemma searchLoop_eq {α : Type} (pred : α → Bool) :
    ∀ (m : List (String × α)) (limit : Nat), 1 ≤ limit →
      searchLoop pred limit m =
        ((m.filter fun p => pred p.2).map Prod.snd).take limit := by
  intro m
  induction m with
  | nil => intro limit _; simp [searchLoop]
  | cons p rest ih =>
    rintro limit hlim
    obtain ⟨n, rfl⟩ : ∃ n, limit = n + 1 := ⟨limit - 1, by omega⟩
    obtain ⟨k, v⟩ := p
    cases hp : pred v with
    | true =>
      by_cases h1 : n = 0
      · subst h1
        simp [searchLoop, hp, List.filter_cons]
      · have h2 : 1 ≤ n := by omega
        have hle : ¬ (n + 1 ≤ 1) := by omega
        simp only [searchLoop, hp, if_true, if_neg hle, Nat.add_sub_cancel]
        rw [ih n h2]
        simp [List.filter_cons, hp]
    | false =>
      simp only [searchLoop, hp, Bool.false_eq_true, if_false]
      rw [ih (n + 1) hlim]
      simp [List.filter_cons, hp]

/-- C10.  `getAllSchemas` and `searchSchemas` sort ascending (and return
exactly the stored schemas, respectively exactly those whose lower-cased
name starts with the lower-cased prefix), whereas `searchTables` and
`searchColumns` return the matching entries in map insertion order — the
first `limit` entries of the filtered entry list. -/
theorem c10_schemas_sorted_tables_insertion_order (st : SchemaCache) (pre : String)
    (limit : Nat) (tcl : List String) (hlim : 1 ≤ limit) (htcl : tcl ≠ []) :
    List.Sorted (· ≤ ·) (getAllSchemas st) ∧
    List.Perm (getAllSchemas st) st.schemas ∧
    List.Sorted (· ≤ ·) (searchSchemas st pre) ∧
    List.Perm (searchSchemas st pre)
      (st.schemas.filter fun s => (jsToLower pre).data.isPrefixOf (jsToLower s).data) ∧
    searchTables st pre limit =
      ((st.tables.filter fun p =>
          containsSub (jsToLower pre).data (jsToLower p.2.qualifiedName).data ||
            (jsToLower pre).data.isPrefixOf (jsToLower p.2.info.name).data).map
        Prod.snd).take limit ∧
    searchColumns st pre none limit =
      ((st.columns.filter fun p => colMatchNoCtx (jsToLower pre) p.2).map
        Prod.snd).take limit ∧
    searchColumns st pre (some tcl) limit =
      ((st.columns.filter fun p =>
          colMatchCtx (jsToLower pre) (tcl.map jsToLower) p.2).map Prod.snd).take limit := by
  refine ⟨sorted_jsSortStrings _, perm_jsSortStrings _, sorted_jsSortStrings _,
    perm_jsSortStrings _, ?_, ?_, ?_⟩
  · exact searchLoop_eq _ st.tables limit hlim
  · exact searchLoop_eq _ st.columns limit hlim
  · have hne : tcl.isEmpty = false := by
      cases tcl with
      | nil => exact absurd rfl htcl
      | cons a t => rfl
    unfold searchColumns
    simp only [hne, Bool.false_eq_true, if_false]
    exact searchLoop_eq _ st.columns limit hlim

/-- C10 witness: on a concrete cache the schema list comes out sorted and a
limit-1 table search returns the first-inserted match. -/
theorem c10_witness :
    List.Sorted (· ≤ ·)
      (getAllSchemas (loadTables emptyCache
        [⟨("DB"), ("SB"), ("X")⟩, ⟨("DB"), ("SA"), ("Y")⟩] [])) ∧
    searchTables (loadTables emptyCache
        [⟨("DB"), ("SB"), ("X")⟩, ⟨("DB"), ("SA"), ("Y")⟩] []) ("") 1 =
      (((loadTables emptyCache
          [⟨("DB"), ("SB"), ("X")⟩, ⟨("DB"), ("SA"), ("Y")⟩] []).tables.filter fun p =>
            containsSub (jsToLower ("")).data (jsToLower p.2.qualifiedName).data ||
              (jsToLower ("")).data.isPrefixOf (jsToLower p.2.info.name).data).map
        Prod.snd).take 1 := by
  have h := c10_schemas_sorted_tables_insertion_order
    (loadTables emptyCache [⟨("DB"), ("SB"), ("X")⟩, ⟨("DB"), ("SA"), ("Y")⟩] [])
    ("") 1 [("t")] (by omega) (by simp)
  exact ⟨h.1, h.2.2.2.2.1⟩

/-! ## C9: the classifier is total and degrades to GENERAL -/

/-- C9.  For every text and cursor offset the classifier returns a
descriptor whose context is one of the six fixed kinds, whose `currentWord`
is always the defined (possibly empty) word at the cursor, and which is
GENERAL unless one of the four specific trailing patterns matched the text
before the cursor. -/
theorem c9_classifier_total_and_degrades (text : String) (position : Nat) :
    ((parseContext text position).context = SQLContext.SELECT_LIST ∨
     (parseContext text position).context = SQLContext.FROM_CLAUSE ∨
     (parseContext text position).context = SQLContext.WHERE_CLAUSE ∨
     (parseContext text position).context = SQLContext.TABLE_DOT ∨
     (parseContext text position).context = SQLContext.SCHEMA_DOT ∨
     (parseContext text position).context = SQLContext.GENERAL) ∧
    (parseContext text position).currentWord = ⟨extractCurrentWord text.data position⟩ ∧
    ((parseContext text position).context = SQLContext.GENERAL ∨
     trailingDotIdent (text.data.take position) ≠ none ∨
     fromJoinTrailing ((text.data.take position).map lowChar) = true ∨
     whereContextCond ((text.data.take position).map lowChar) = true ∨
     selectContextCond ((text.data.take position).map lowChar) = true) := by
  refine ⟨?_, rfl, ?_⟩
  · unfold parseContext
    rcases htr : trailingDotIdent (text.data.take position) with _ | ident
    · simp only [htr]
      split_ifs <;> simp
    · simp only [htr]
      split_ifs <;> simp
  · unfold parseContext
    rcases htr : trailingDotIdent (text.data.take position) with _ | ident
    · simp only [htr]
      by_cases h1 : fromJoinTrailing ((text.data.take position).map lowChar) = true
      · exact Or.inr (Or.inr (Or.inl h1))
      · by_cases h2 : whereContextCond ((text.data.take position).map lowChar) = true
        · exact Or.inr (Or.inr (Or.inr (Or.inl h2)))
        · by_cases h3 : selectContextCond ((text.data.take position).map lowChar) = true
          · exact Or.inr (Or.inr (Or.inr (Or.inr h3)))
          · left
            rw [List.map_take] at h1 h2 h3
            simp [h1, h2, h3]
    · exact Or.inr (Or.inl (by simp [htr]))

/-! ## C7: the dot context for `SELECT o.| FROM orders o` -/

/-- C7 counterexample.  With the FROM clause after the cursor, the
classifier does not return the table-dot kind for `SELECT o.| FROM orders o`
(tables and aliases are extracted from the text before the cursor only). -/
theorem c7_counterexample :
    (parseContext ("SELECT o. FROM orders o") 9).context ≠ SQLContext.TABLE_DOT := by
  decide

/-- C7 as amended.  For `SELECT o.| FROM orders o` (cursor right after the
dot) the classifier returns the schema-dot kind, because the defining FROM
clause lies after the cursor and extraction scans only the prefix; when the
FROM clause precedes the cursor, as in `SELECT 1 FROM orders o WHERE o.|`,
the identifier `o` resolves as an alias of `orders` and the classifier
returns the table-dot kind. -/
theorem c7_dot_context_amended :
    (parseContext ("SELECT o. FROM orders o") 9).context = SQLContext.SCHEMA_DOT ∧
    (parseContext ("SELECT 1 FROM orders o WHERE o.") 31).context = SQLContext.TABLE_DOT ∧
    (parseContext ("SELECT 1 FROM orders o WHERE o.") 31).aliases =
      [(("o"), ("orders"))] := by
  refine ⟨by decide, by decide, by decide⟩

/-! ## Generic lemmas about the character matchers -/

lemma word_not_space {c : Char} (h : isWordChar c = true) : isSpaceChar c = false := by
  cases hs : isSpaceChar c
  · rfl
  · exfalso
    have hs' : c = ' ' ∨ c = '\t' ∨ c = '\n' ∨ c = '\r' ∨ c = '\x0b' ∨ c = '\x0c' := by
      simpa [isSpaceChar, or_assoc] using hs
    rcases hs' with rfl | rfl | rfl | rfl | rfl | rfl <;> exact absurd h (by decide)

lemma word_not_dot {c : Char} (h : isWordChar c = true) : c ≠ '.' := by
  intro he
  subst he
  exact absurd h (by decide)

lemma word_not_newline {c : Char} (h : isWordChar c = true) : c ≠ '\n' := by
  intro he
  subst he
  exact absurd h (by decide)

lemma matchLitCI_exists_append (p : List Char) :
    ∀ (s r : List Char), matchLitCI p s = some r → ∃ q, s = q ++ r := by
  induction p with
  | nil =>
    intro s r h
    simp only [matchLitCI, Option.some_inj] at h
    exact ⟨[], by simp [h]⟩
  | cons pc ps ih =>
    intro s r h
    cases s with
    | nil => simp [matchLitCI] at h
    | cons c cs =>
      simp only [matchLitCI] at h
      by_cases hc : lowChar c = lowChar pc
      · rw [if_pos hc] at h
        obtain ⟨q, rfl⟩ := ih cs r h
        exact ⟨c :: q, rfl⟩
      · rw [if_neg hc] at h
        exact absurd h (by simp)

lemma matchRun1_none_of (p : Char → Bool) (s : List Char)
    (h : ∀ c ∈ s, p c = false) : matchRun1 p s = none := by
  cases s with
  | nil => rfl
  | cons c cs =>
    simp only [matchRun1, List.takeWhile_cons, h c (List.mem_cons_self c cs),
      Bool.false_eq_true, if_false]
    rfl

lemma matchUseKwAt_none_of_no_space (kw : List Char) (cls : Char → Bool)
    (s : List Char) (h : ∀ c ∈ s, isSpaceChar c = false) :
    matchUseKwAt kw cls s = none := by
  unfold matchUseKwAt
  cases hlit : matchLitCI ('u' :: 's' :: 'e' :: []) s with
  | none => rfl
  | some s1 =>
    obtain ⟨q, rfl⟩ := matchLitCI_exists_append _ s s1 hlit
    have h1 : ∀ c ∈ s1, isSpaceChar c = false := fun c hc =>
      h c (List.mem_append_right q hc)
    rw [Option.some_bind, matchRun1_none_of isSpaceChar s1 h1]
    rfl

lemma scanFor_cons_none {α : Type} (f : List Char → Option α) (c : Char)
    (cs : List Char) (h : f (c :: cs) = none) :
    scanFor f (c :: cs) = scanFor f cs := by
  simp [scanFor, h]

lemma scanFor_cons_some {α : Type} (f : List Char → Option α) (c : Char)
    (cs : List Char) (v : α) (h : f (c :: cs) = some v) :
    scanFor f (c :: cs) = some v := by
  simp [scanFor, h]

lemma scanFor_none {α : Type} (f : List Char → Option α) (l : List Char)
    (h : ∀ s, List.IsSuffix s l → f s = none) : scanFor f l = none := by
  induction l with
  | nil => simpa [scanFor] using h [] (by simp)
  | cons c cs ih =>
    rw [scanFor_cons_none f c cs (h (c :: cs) (by simp))]
    exact ih fun s hs => h s (hs.trans (List.suffix_cons c cs))

lemma takeWhile_all (p : Char → Bool) (l : List Char)
    (h : ∀ c ∈ l, p c = true) : l.takeWhile p = l := by
  induction l with
  | nil => rfl
  | cons c cs ih =>
    rw [List.takeWhile_cons, if_pos (h c (List.mem_cons_self c cs))]
    rw [ih fun c' hc' => h c' (List.mem_cons_of_mem c hc')]

lemma dropWhile_all (p : Char → Bool) (l : List Char)
    (h : ∀ c ∈ l, p c = true) : l.dropWhile p = [] := by
  induction l with
  | nil => rfl
  | cons c cs ih =>
    rw [List.dropWhile_cons, if_pos (h c (List.mem_cons_self c cs))]
    exact ih fun c' hc' => h c' (List.mem_cons_of_mem c hc')

lemma matchRun1_all (p : Char → Bool) (l : List Char) (hne : l ≠ [])
    (h : ∀ c ∈ l, p c = true) : matchRun1 p l = some (l, []) := by
  simp only [matchRun1, takeWhile_all p l h, dropWhile_all p l h]
  cases l with
  | nil => exact absurd rfl hne
  | cons c cs => rfl

lemma splitOnChar_no_sep (sep : Char) (l : List Char)
    (h : ∀ c ∈ l, c ≠ sep) : splitOnChar sep l = [l] := by
  induction l with
  | nil => rfl
  | cons c cs ih =>
    simp only [splitOnChar, if_neg (h c (List.mem_cons_self c cs))]
    rw [ih fun c' hc' => h c' (List.mem_cons_of_mem c hc')]

lemma splitOnChar_append_sep (sep : Char) (db rest : List Char)
    (h : ∀ c ∈ db, c ≠ sep) :
    splitOnChar sep (db ++ sep :: rest) = db :: splitOnChar sep rest := by
  induction db with
  | nil => simp [splitOnChar]
  | cons d ds ih =>
    simp only [List.cons_append, splitOnChar,
      if_neg (h d (List.mem_cons_self d ds))]
    rw [show ds.append (sep :: rest) = ds ++ sep :: rest from rfl,
      ih fun c' hc' => h c' (List.mem_cons_of_mem d hc')]

/-! ## C2: qualified `USE SCHEMA db.schema` decomposes into two commands -/

lemma matchUseKwAt_fail_head (kw : List Char) (cls : Char → Bool) (c : Char)
    (rest : List Char) (h : ¬ lowChar c = 'u') :
    matchUseKwAt kw cls (c :: rest) = none := by
  unfold matchUseKwAt
  have hu : lowChar 'u' = 'u' := by decide
  simp only [matchLitCI, hu, if_neg h]
  rfl

lemma c2_db_fail_at_0 (r : List Char) :
    matchUseDbAt ('U' :: 'S' :: 'E' :: ' ' :: 'S' :: r) = none := by
  unfold matchUseDbAt matchUseKwAt
  simp +decide [matchLitCI, matchRun1, List.takeWhile_cons, List.dropWhile_cons]

lemma c2_dbAt_fail_head (c : Char) (rest : List Char) (h : ¬ lowChar c = 'u') :
    matchUseDbAt (c :: rest) = none :=
  matchUseKwAt_fail_head _ _ c rest h

lemma c2_dbAt_no_space (s : List Char) (h : ∀ c ∈ s, isSpaceChar c = false) :
    matchUseDbAt s = none :=
  matchUseKwAt_none_of_no_space _ _ s h

lemma c2_db_scan_none (X : List Char) (hX : ∀ c ∈ X, isSpaceChar c = false) :
    scanFor matchUseDbAt
      ('U' :: 'S' :: 'E' :: ' ' :: 'S' :: 'C' :: 'H' :: 'E' :: 'M' :: 'A' :: ' ' :: X) =
      none := by
  rw [scanFor_cons_none _ _ _ (c2_db_fail_at_0 _)]
  rw [scanFor_cons_none _ _ _ (c2_dbAt_fail_head 'S' _ (by decide))]
  rw [scanFor_cons_none _ _ _ (c2_dbAt_fail_head 'E' _ (by decide))]
  rw [scanFor_cons_none _ _ _ (c2_dbAt_fail_head ' ' _ (by decide))]
  rw [scanFor_cons_none _ _ _ (c2_dbAt_fail_head 'S' _ (by decide))]
  rw [scanFor_cons_none _ _ _ (c2_dbAt_fail_head 'C' _ (by decide))]
  rw [scanFor_cons_none _ _ _ (c2_dbAt_fail_head 'H' _ (by decide))]
  rw [scanFor_cons_none _ _ _ (c2_dbAt_fail_head 'E' _ (by decide))]
  rw [scanFor_cons_none _ _ _ (c2_dbAt_fail_head 'M' _ (by decide))]
  rw [scanFor_cons_none _ _ _ (c2_dbAt_fail_head 'A' _ (by decide))]
  rw [scanFor_cons_none _ _ _ (c2_dbAt_fail_head ' ' _ (by decide))]
  exact scanFor_none _ X fun s hs =>
    c2_dbAt_no_space s fun c hc => hX c (hs.subset hc)

lemma c2_schema_at_0 (db sc : List Char) (hdb : db ≠ [])
    (hdbw : ∀ c ∈ db, isWordChar c = true) (hscw : ∀ c ∈ sc, isWordChar c = true) :
    matchUseSchemaAt
      ('U' :: 'S' :: 'E' :: ' ' :: 'S' :: 'C' :: 'H' :: 'E' :: 'M' :: 'A' :: ' ' ::
        (db ++ '.' :: sc)) = some (db ++ '.' :: sc) := by
  unfold matchUseSchemaAt matchUseKwAt
  have h1 : matchLitCI ('u' :: 's' :: 'e' :: [])
      ('U' :: 'S' :: 'E' :: ' ' :: 'S' :: 'C' :: 'H' :: 'E' :: 'M' :: 'A' :: ' ' ::
        (db ++ '.' :: sc)) =
      some (' ' :: 'S' :: 'C' :: 'H' :: 'E' :: 'M' :: 'A' :: ' ' :: (db ++ '.' :: sc)) := by
    simp +decide [matchLitCI]
  rw [h1, Option.some_bind]
  have h2 : matchRun1 isSpaceChar
      (' ' :: 'S' :: 'C' :: 'H' :: 'E' :: 'M' :: 'A' :: ' ' :: (db ++ '.' :: sc)) =
      some ([' '], 'S' :: 'C' :: 'H' :: 'E' :: 'M' :: 'A' :: ' ' :: (db ++ '.' :: sc)) := by
    simp +decide [matchRun1, List.takeWhile_cons, List.dropWhile_cons]
  rw [h2, Option.some_bind]
  have h3 : matchLitCI ('s' :: 'c' :: 'h' :: 'e' :: 'm' :: 'a' :: [])
      ('S' :: 'C' :: 'H' :: 'E' :: 'M' :: 'A' :: ' ' :: (db ++ '.' :: sc)) =
      some (' ' :: (db ++ '.' :: sc)) := by
    simp +decide [matchLitCI]
  rw [h3, Option.some_bind]
  obtain ⟨d0, db', rfl⟩ : ∃ d0 db', db = d0 :: db' := by
    cases db with
    | nil => exact absurd rfl hdb
    | cons d0 db' => exact ⟨d0, db', rfl⟩
  have hd0 : isSpaceChar d0 = false := word_not_space (hdbw d0 (by simp))
  have h4 : matchRun1 isSpaceChar (' ' :: ((d0 :: db') ++ '.' :: sc)) =
      some ([' '], (d0 :: db') ++ '.' :: sc) := by
    simp +decide [matchRun1, List.takeWhile_cons, List.dropWhile_cons,
      List.cons_append, hd0]
  rw [h4, Option.some_bind]
  have hall : ∀ c ∈ (d0 :: db') ++ '.' :: sc, isWordDotChar c = true := by
    intro c hc
    rcases List.mem_append.1 hc with hc1 | hc2
    · simp [isWordDotChar, hdbw c hc1]
    · rcases List.mem_cons.1 hc2 with rfl | hc3
      · decide
      · simp [isWordDotChar, hscw c hc3]
  rw [matchRun1_all isWordDotChar _ (by simp) hall]
  rfl

lemma c2_parseUseLine (db sc : List Char) (hdb : db ≠ [])
    (hdbw : ∀ c ∈ db, isWordChar c = true) (hscw : ∀ c ∈ sc, isWordChar c = true) :
    parseUseLine 0
      ('U' :: 'S' :: 'E' :: ' ' :: 'S' :: 'C' :: 'H' :: 'E' :: 'M' :: 'A' :: ' ' ::
        (db ++ '.' :: sc)) =
      [⟨UseCommandType.DATABASE, ⟨db⟩, 0⟩, ⟨UseCommandType.SCHEMA, ⟨sc⟩, 0⟩] := by
  have hX : ∀ c ∈ db ++ '.' :: sc, isSpaceChar c = false := by
    intro c hc
    rcases List.mem_append.1 hc with hc1 | hc2
    · exact word_not_space (hdbw c hc1)
    · rcases List.mem_cons.1 hc2 with rfl | hc3
      · decide
      · exact word_not_space (hscw c hc3)
  have hcomment : lineIsComment
      ('U' :: 'S' :: 'E' :: ' ' :: 'S' :: 'C' :: 'H' :: 'E' :: 'M' :: 'A' :: ' ' ::
        (db ++ '.' :: sc)) = false := by
    simp +decide [lineIsComment, List.dropWhile_cons, List.isPrefixOf]
  unfold parseUseLine
  rw [hcomment]
  simp only [Bool.false_eq_true, if_false]
  rw [c2_db_scan_none _ hX]
  rw [scanFor_cons_some _ _ _ _ (c2_schema_at_0 db sc hdb hdbw hscw)]
  have hsplit : splitOnChar '.' (db ++ '.' :: sc) = [db, sc] := by
    rw [splitOnChar_append_sep '.' db sc (fun c hc => word_not_dot (hdbw c hc)),
      splitOnChar_no_sep '.' sc (fun c hc => word_not_dot (hscw c hc))]
  simp only [hsplit]

/-- C2.  A line `USE SCHEMA <db>.<schema>` with a two-segment qualified name
(nonempty word-character segments) is parsed into exactly two ordered
commands — DATABASE `<db>` then SCHEMA `<schema>` — and applying the parse
result of that text to a fresh context yields the upper-cased database and
schema (the schema-reset fires before the schema is set, so nothing is
erased). -/
theorem c2_use_schema_qualified (db sc : List Char) (hdb : db ≠ []) (_hsc : sc ≠ [])
    (hdbw : ∀ c ∈ db, isWordChar c = true) (hscw : ∀ c ∈ sc, isWordChar c = true) :
    parseUseCommands
        ⟨'U' :: 'S' :: 'E' :: ' ' :: 'S' :: 'C' :: 'H' :: 'E' :: 'M' :: 'A' :: ' ' ::
          (db ++ '.' :: sc)⟩ =
      [⟨UseCommandType.DATABASE, ⟨db⟩, 0⟩, ⟨UseCommandType.SCHEMA, ⟨sc⟩, 0⟩] ∧
    ∀ (uri : String) (t0 t1 : Nat),
      updateContext (freshContext uri t0)
          (parseUseCommands
            ⟨'U' :: 'S' :: 'E' :: ' ' :: 'S' :: 'C' :: 'H' :: 'E' :: 'M' :: 'A' :: ' ' ::
              (db ++ '.' :: sc)⟩) t1 =
        ⟨uri, some (jsToUpper ⟨db⟩), some (jsToUpper ⟨sc⟩), none, none, t1⟩ := by
  have hnl : ∀ c ∈ ('U' :: 'S' :: 'E' :: ' ' :: 'S' :: 'C' :: 'H' :: 'E' :: 'M' ::
      'A' :: ' ' :: (db ++ '.' :: sc)), c ≠ '\n' := by
    intro c hc
    simp only [List.mem_cons] at hc
    rcases hc with rfl | rfl | rfl | rfl | rfl | rfl | rfl | rfl | rfl | rfl | rfl | hc2
    · decide
    · decide
    · decide
    · decide
    · decide
    · decide
    · decide
    · decide
    · decide
    · decide
    · decide
    · rcases List.mem_append.1 hc2 with hc3 | hc4
      · exact word_not_newline (hdbw c hc3)
      · rcases List.mem_cons.1 hc4 with rfl | hc5
        · decide
        · exact word_not_newline (hscw c hc5)
  have hparse : parseUseCommands
      ⟨'U' :: 'S' :: 'E' :: ' ' :: 'S' :: 'C' :: 'H' :: 'E' :: 'M' :: 'A' :: ' ' ::
        (db ++ '.' :: sc)⟩ =
      [⟨UseCommandType.DATABASE, ⟨db⟩, 0⟩, ⟨UseCommandType.SCHEMA, ⟨sc⟩, 0⟩] := by
    unfold parseUseCommands
    rw [show (⟨'U' :: 'S' :: 'E' :: ' ' :: 'S' :: 'C' :: 'H' :: 'E' :: 'M' :: 'A' ::
        ' ' :: (db ++ '.' :: sc)⟩ : String).data =
      'U' :: 'S' :: 'E' :: ' ' :: 'S' :: 'C' :: 'H' :: 'E' :: 'M' :: 'A' :: ' ' ::
        (db ++ '.' :: sc) from rfl]
    rw [splitOnChar_no_sep '\n' _ hnl]
    simp only [List.enum, List.enumFrom, List.flatMap_cons, List.flatMap_nil,
      List.append_nil]
    exact c2_parseUseLine db sc hdb hdbw hscw
  refine ⟨hparse, fun uri t0 t1 => ?_⟩
  rw [hparse]
  rfl

/-- C2 witness: `USE SCHEMA PROD.ANALYTICS` on a fresh context yields
`database = PROD`, `schema = ANALYTICS`. -/
theorem c2_use_schema_qualified_witness :
    parseUseCommands ("USE SCHEMA PROD.ANALYTICS") =
      [⟨UseCommandType.DATABASE, ("PROD"), 0⟩, ⟨UseCommandType.SCHEMA, ("ANALYTICS"), 0⟩] ∧
    updateContext (freshContext ("doc") 0)
        (parseUseCommands ("USE SCHEMA PROD.ANALYTICS")) 1 =
      ⟨("doc"), some ("PROD"), some ("ANALYTICS"), none, none, 1⟩ := by
  have h := c2_use_schema_qualified (("PROD").data) (("ANALYTICS").data)
    (by decide) (by decide) (by decide) (by decide)
  exact ⟨h.1, h.2 ("doc") 0 1⟩

/-! ## Machinery for the FROM/JOIN extraction families (C6, C8) -/

lemma map_id_of {f : Char → Char} {l : List Char} (h : ∀ c ∈ l, f c = c) :
    l.map f = l := by
  induction l with
  | nil => rfl
  | cons c cs ih =>
    rw [List.map_cons, h c (List.mem_cons_self c cs),
      ih fun c' hc' => h c' (List.mem_cons_of_mem c hc')]

lemma takeWhile_append_cons (p : Char → Bool) (xs : List Char) (y : Char)
    (ys : List Char) (hxs : ∀ c ∈ xs, p c = true) (hy : p y = false) :
    (xs ++ y :: ys).takeWhile p = xs := by
  induction xs with
  | nil => simp [List.takeWhile_cons, hy]
  | cons x xt ih =>
    rw [List.cons_append, List.takeWhile_cons, if_pos (hxs x (List.mem_cons_self x xt)),
      ih fun c hc => hxs c (List.mem_cons_of_mem x hc)]

lemma dropWhile_append_cons (p : Char → Bool) (xs : List Char) (y : Char)
    (ys : List Char) (hxs : ∀ c ∈ xs, p c = true) (hy : p y = false) :
    (xs ++ y :: ys).dropWhile p = y :: ys := by
  induction xs with
  | nil => simp [List.dropWhile_cons, hy]
  | cons x xt ih =>
    rw [List.cons_append, List.dropWhile_cons, if_pos (hxs x (List.mem_cons_self x xt)),
      ih fun c hc => hxs c (List.mem_cons_of_mem x hc)]

lemma matchRun1_append_cons (p : Char → Bool) (xs : List Char) (y : Char)
    (ys : List Char) (hne : xs ≠ []) (hxs : ∀ c ∈ xs, p c = true)
    (hy : p y = false) : matchRun1 p (xs ++ y :: ys) = some (xs, y :: ys) := by
  simp only [matchRun1, takeWhile_append_cons p xs y ys hxs hy,
    dropWhile_append_cons p xs y ys hxs hy]
  cases xs with
  | nil => exact absurd rfl hne
  | cons a t => rfl

lemma matchRun1_none_head (p : Char → Bool) (c : Char) (cs : List Char)
    (h : p c = false) : matchRun1 p (c :: cs) = none := by
  simp [matchRun1, List.takeWhile_cons, h]

lemma litCI_space_result (A : List Char) (kw : List Char) :
    ∀ (T2 : List Char), (∀ c ∈ kw, lowChar c ≠ ' ') →
    (∀ c ∈ T2, isSpaceChar c = false) →
    matchLitCI kw T2 ≠ some [] →
    ∀ r, matchLitCI kw (T2 ++ ' ' :: A) = some r → matchRun1 isSpaceChar r = none := by
  induction kw with
  | nil =>
    intro T2 _ hT2 hne r hr
    simp only [matchLitCI, Option.some_inj] at hr
    subst hr
    cases T2 with
    | nil => exact absurd rfl hne
    | cons t ts =>
      rw [List.cons_append]
      exact matchRun1_none_head _ t _ (hT2 t (List.mem_cons_self t ts))
  | cons k ks ih =>
    intro T2 hkw hT2 hne r hr
    cases T2 with
    | nil =>
      simp only [List.nil_append, matchLitCI] at hr
      have hk : lowChar k ≠ ' ' := hkw k (List.mem_cons_self k ks)
      rw [if_neg (by rw [show lowChar ' ' = ' ' from by decide]; exact fun he => hk he.symm)] at hr
      cases hr
    | cons t ts =>
      simp only [List.cons_append, matchLitCI] at hr
      by_cases hc : lowChar t = lowChar k
      · rw [if_pos hc] at hr
        refine ih ts (fun c hc' => hkw c (List.mem_cons_of_mem k hc'))
          (fun c hc' => hT2 c (List.mem_cons_of_mem t hc')) ?_ r hr
        intro hbad
        apply hne
        simp only [matchLitCI, if_pos hc]
        exact hbad
      · rw [if_neg hc] at hr
        cases hr

lemma litCI_some_nil (kw : List Char) :
    ∀ (T2 : List Char), (∀ c ∈ kw, lowChar c = c) → (∀ c ∈ T2, lowChar c = c) →
    matchLitCI kw T2 = some [] → T2 = kw := by
  induction kw with
  | nil =>
    intro T2 _ _ h
    cases T2 with
    | nil => rfl
    | cons t ts => simp [matchLitCI] at h
  | cons k ks ih =>
    intro T2 hkw hT2 h
    cases T2 with
    | nil => simp [matchLitCI] at h
    | cons t ts =>
      simp only [matchLitCI] at h
      by_cases hc : lowChar t = lowChar k
      · rw [if_pos hc] at h
        have ht : t = k := by
          rw [← hT2 t (List.mem_cons_self t ts), ← hkw k (List.mem_cons_self k ks)]
          exact hc
        rw [ht, ih ts (fun c hc' => hkw c (List.mem_cons_of_mem k hc'))
          (fun c hc' => hT2 c (List.mem_cons_of_mem t hc')) h]
      · rw [if_neg hc] at h
        cases h

lemma matchTA_fail_head (k0 : Char) (ks : List Char) (c : Char) (cs : List Char)
    (h : ¬ lowChar c = lowChar k0) : matchTableAliasAt (k0 :: ks) (c :: cs) = none := by
  unfold matchTableAliasAt
  simp only [matchLitCI, if_neg h]
  rfl

lemma matchTA_none_of_no_space (kw s : List Char)
    (h : ∀ c ∈ s, isSpaceChar c = false) : matchTableAliasAt kw s = none := by
  unfold matchTableAliasAt
  cases hlit : matchLitCI kw s with
  | none => rfl
  | some s1 =>
    obtain ⟨q, rfl⟩ := matchLitCI_exists_append _ s s1 hlit
    rw [Option.some_bind,
      matchRun1_none_of isSpaceChar s1 fun c hc => h c (List.mem_append_right q hc)]
    rfl

lemma matchTA_fail_word_space (kw T2 A : List Char)
    (hkw : ∀ c ∈ kw, lowChar c ≠ ' ')
    (hT2 : ∀ c ∈ T2, isSpaceChar c = false)
    (hne : matchLitCI kw T2 ≠ some []) :
    matchTableAliasAt kw (T2 ++ ' ' :: A) = none := by
  unfold matchTableAliasAt
  cases hlit : matchLitCI kw (T2 ++ ' ' :: A) with
  | none => rfl
  | some r =>
    rw [Option.some_bind, litCI_space_result A kw T2 hkw hT2 hne r hlit]
    rfl

lemma suffix_append_char (T A : List Char) (x : Char) (s : List Char)
    (h : List.IsSuffix s (T ++ x :: A)) :
    (∃ T2, List.IsSuffix T2 T ∧ s = T2 ++ x :: A) ∨ List.IsSuffix s A := by
  induction T with
  | nil =>
    rcases List.suffix_cons_iff.1 h with rfl | h2
    · exact Or.inl ⟨[], by simp, rfl⟩
    · exact Or.inr h2
  | cons t ts ih =>
    rcases List.suffix_cons_iff.1 h with rfl | h2
    · exact Or.inl ⟨t :: ts, List.suffix_refl _, by simp⟩
    · rcases ih h2 with ⟨T2, hT2, rfl⟩ | hA
      · exact Or.inl ⟨T2, hT2.trans (List.suffix_cons t ts), rfl⟩
      · exact Or.inr hA

lemma execTAAux_nil (kw : List Char) (fuel : Nat) (prev : Option Char) :
    execTAAux kw fuel prev [] = [] := by
  cases fuel <;> rfl

lemma execTAAux_cons_fail (kw : List Char) (n : Nat) (prev : Option Char)
    (c : Char) (cs : List Char) (h : matchTableAliasAt kw (c :: cs) = none) :
    execTAAux kw (n + 1) prev (c :: cs) = execTAAux kw n (some c) cs := by
  rw [execTAAux, h]
  split <;> rfl

lemma execTAAux_nil_of_fail (kw : List Char) (l : List Char) :
    ∀ (fuel : Nat) (prev : Option Char),
      (∀ s, List.IsSuffix s l → matchTableAliasAt kw s = none) →
      execTAAux kw fuel prev l = [] := by
  induction l with
  | nil => intro fuel prev _; exact execTAAux_nil kw fuel prev
  | cons c cs ih =>
    intro fuel prev h
    cases fuel with
    | zero => rfl
    | succ n =>
      rw [execTAAux_cons_fail kw n prev c cs (h (c :: cs) (List.suffix_refl _))]
      exact ih n (some c) fun s hs => h s (hs.trans (List.suffix_cons c cs))

lemma execTAAux_cons_match (kw : List Char) (n : Nat) (prev : Option Char)
    (c : Char) (cs tbl rest : List Char) (al : Option (List Char))
    (hb : atWordBoundary prev = true)
    (h : matchTableAliasAt kw (c :: cs) = some (tbl, al, rest)) :
    execTAAux kw (n + 1) prev (c :: cs) =
      (tbl, al) :: execTAAux kw n (some ((al.getD tbl).getLastD c)) rest := by
  simp only [execTAAux, if_pos hb, h]
  cases al <;> rfl

lemma litCI_self_append (kw r : List Char) : matchLitCI kw (kw ++ r) = some r := by
  induction kw with
  | nil => rfl
  | cons k ks ih =>
    rw [List.cons_append]
    simp only [matchLitCI, if_pos rfl]
    exact ih

lemma aliasPart_space_word (A : List Char) (hA : A ≠ [])
    (hAw : ∀ c ∈ A, isWordChar c = true) :
    matchAliasPart (' ' :: A) = some (A, []) := by
  have hsp : matchRun1 isSpaceChar (' ' :: A) = some ([' '], A) := by
    cases A with
    | nil => exact absurd rfl hA
    | cons a as =>
      exact matchRun1_append_cons isSpaceChar ([' ']) a as (by simp)
        (fun c hc => by rw [List.mem_singleton.1 hc]; decide)
        (word_not_space (hAw a (List.mem_cons_self a as)))
  unfold matchAliasPart
  simp only [hsp, Option.some_bind]
  have hasb : ((matchLitCI ('a' :: 's' :: []) A).bind fun s2 =>
      (matchRun1 isSpaceChar s2).bind fun pr2 => matchRun1 isWordChar pr2.2) = none := by
    cases hlit : matchLitCI ('a' :: 's' :: []) A with
    | none => rfl
    | some s2 =>
      obtain ⟨q, rfl⟩ := matchLitCI_exists_append _ A s2 hlit
      rw [Option.some_bind, matchRun1_none_of isSpaceChar s2
        (fun c hc => word_not_space (hAw c (List.mem_append_right q hc)))]
      rfl
  rw [hasb, matchRun1_all isWordChar A hA hAw]
  rfl

lemma matchTA_success (kw T A : List Char)
    (hT : T ≠ []) (hTw : ∀ c ∈ T, isWordChar c = true)
    (hA : A ≠ []) (hAw : ∀ c ∈ A, isWordChar c = true) :
    matchTableAliasAt kw (kw ++ ' ' :: (T ++ ' ' :: A)) = some (T, some A, []) := by
  have hsp : matchRun1 isSpaceChar (' ' :: (T ++ ' ' :: A)) =
      some ([' '], T ++ ' ' :: A) := by
    cases T with
    | nil => exact absurd rfl hT
    | cons t ts =>
      rw [List.cons_append]
      exact matchRun1_append_cons isSpaceChar ([' ']) t (ts ++ ' ' :: A) (by simp)
        (fun c hc => by rw [List.mem_singleton.1 hc]; decide)
        (word_not_space (hTw t (List.mem_cons_self t ts)))
  have hwd : matchRun1 isWordDotChar (T ++ ' ' :: A) = some (T, ' ' :: A) := by
    cases T with
    | nil => exact absurd rfl hT
    | cons t ts =>
      exact matchRun1_append_cons isWordDotChar (t :: ts) ' ' A (by simp)
        (fun c hc => by simp [isWordDotChar, hTw c hc]) (by decide)
  unfold matchTableAliasAt
  rw [litCI_self_append, Option.some_bind]
  simp only [hsp, Option.some_bind, hwd, aliasPart_space_word A hA hAw]

lemma matchTA_sep_family_none (kw P T A : List Char)
    (hkww : ∀ c ∈ kw, lowChar c = c)
    (hkwns : ∀ c ∈ kw, lowChar c ≠ ' ')
    (hPw : ∀ c ∈ P, isWordChar c = true)
    (hPlc : ∀ c ∈ P, lowChar c = c)
    (hPk : ¬ List.IsSuffix kw P)
    (hTw : ∀ c ∈ T, isWordChar c = true)
    (hTlc : ∀ c ∈ T, lowChar c = c)
    (hTk : ¬ List.IsSuffix kw T)
    (hAw : ∀ c ∈ A, isWordChar c = true) :
    ∀ s, List.IsSuffix s (P ++ ' ' :: (T ++ ' ' :: A)) →
      matchTableAliasAt kw s = none := by
  intro s hs
  rcases suffix_append_char P (T ++ ' ' :: A) ' ' s hs with ⟨s1, hs1, rfl⟩ | hsA
  · refine matchTA_fail_word_space kw s1 (T ++ ' ' :: A) hkwns
      (fun c hc => word_not_space (hPw c (hs1.subset hc))) ?_
    intro hbad
    have hseq : s1 = kw :=
      litCI_some_nil kw s1 hkww (fun c hc => hPlc c (hs1.subset hc)) hbad
    exact hPk (hseq ▸ hs1)
  · rcases suffix_append_char T A ' ' s hsA with ⟨T2, hT2, rfl⟩ | hsA2
    · refine matchTA_fail_word_space kw T2 A hkwns
        (fun c hc => word_not_space (hTw c (hT2.subset hc))) ?_
      intro hbad
      have hseq : T2 = kw :=
        litCI_some_nil kw T2 hkww (fun c hc => hTlc c (hT2.subset hc)) hbad
      exact hTk (hseq ▸ hT2)
    · exact matchTA_none_of_no_space kw s
        (fun c hc => word_not_space (hAw c (hsA2.subset hc)))

lemma execTA_family (k0 : Char) (ks T A : List Char)
    (hT : T ≠ []) (hTw : ∀ c ∈ T, isWordChar c = true)
    (hA : A ≠ []) (hAw : ∀ c ∈ A, isWordChar c = true) :
    execTA (k0 :: ks) (k0 :: (ks ++ ' ' :: (T ++ ' ' :: A))) = [(T, some A)] := by
  have hsucc := matchTA_success (k0 :: ks) T A hT hTw hA hAw
  rw [List.cons_append] at hsucc
  unfold execTA
  rw [List.length_cons]
  rw [execTAAux_cons_match (k0 :: ks) _ none k0 _ T [] (some A) rfl hsucc]
  rw [execTAAux_nil]

lemma extract_family_from (text T A : List Char)
    (hmap : text.map lowChar = 'f' :: 'r' :: 'o' :: 'm' :: ' ' :: (T ++ ' ' :: A))
    (hT : T ≠ []) (hTw : ∀ c ∈ T, isWordChar c = true)
    (hTlc : ∀ c ∈ T, lowChar c = c)
    (hTj : ¬ List.IsSuffix ('j' :: 'o' :: 'i' :: 'n' :: []) T)
    (hA : A ≠ []) (hAw : ∀ c ∈ A, isWordChar c = true) :
    extractTablesAndAliases text =
      if fromAliasOk ⟨A⟩ then ([⟨T⟩, ⟨A⟩], [((⟨A⟩ : String), (⟨T⟩ : String))])
      else ([⟨T⟩], []) := by
  have hfrom : execTA ('f' :: 'r' :: 'o' :: 'm' :: [])
      ('f' :: 'r' :: 'o' :: 'm' :: ' ' :: (T ++ ' ' :: A)) = [(T, some A)] :=
    execTA_family 'f' ('r' :: 'o' :: 'm' :: []) T A hT hTw hA hAw
  have hjoin : execTA ('j' :: 'o' :: 'i' :: 'n' :: [])
      ('f' :: 'r' :: 'o' :: 'm' :: ' ' :: (T ++ ' ' :: A)) = [] := by
    unfold execTA
    exact execTAAux_nil_of_fail _ _ _ none
      (fun s hs => matchTA_sep_family_none ('j' :: 'o' :: 'i' :: 'n' :: [])
        ('f' :: 'r' :: 'o' :: 'm' :: []) T A (by decide) (by decide) (by decide)
        (by decide) (by decide) hTw hTlc hTj hAw s hs)
  simp only [extractTablesAndAliases, hmap, hfrom, hjoin, List.foldl_cons, List.foldl_nil]
  simp only [taStep]
  cases hok : fromAliasOk (⟨A⟩ : String) with
  | true => simp [hok, jsSet]
  | false => simp [hok]

lemma extract_family_join (text T A : List Char)
    (hmap : text.map lowChar = 'j' :: 'o' :: 'i' :: 'n' :: ' ' :: (T ++ ' ' :: A))
    (hT : T ≠ []) (hTw : ∀ c ∈ T, isWordChar c = true)
    (hTlc : ∀ c ∈ T, lowChar c = c)
    (hTf : ¬ List.IsSuffix ('f' :: 'r' :: 'o' :: 'm' :: []) T)
    (hA : A ≠ []) (hAw : ∀ c ∈ A, isWordChar c = true) :
    extractTablesAndAliases text =
      if joinAliasOk ⟨A⟩ then ([⟨T⟩, ⟨A⟩], [((⟨A⟩ : String), (⟨T⟩ : String))])
      else ([⟨T⟩], []) := by
  have hjoin : execTA ('j' :: 'o' :: 'i' :: 'n' :: [])
      ('j' :: 'o' :: 'i' :: 'n' :: ' ' :: (T ++ ' ' :: A)) = [(T, some A)] :=
    execTA_family 'j' ('o' :: 'i' :: 'n' :: []) T A hT hTw hA hAw
  have hfrom : execTA ('f' :: 'r' :: 'o' :: 'm' :: [])
      ('j' :: 'o' :: 'i' :: 'n' :: ' ' :: (T ++ ' ' :: A)) = [] := by
    unfold execTA
    exact execTAAux_nil_of_fail _ _ _ none
      (fun s hs => matchTA_sep_family_none ('f' :: 'r' :: 'o' :: 'm' :: [])
        ('j' :: 'o' :: 'i' :: 'n' :: []) T A (by decide) (by decide) (by decide)
        (by decide) (by decide) hTw hTlc hTf hAw s hs)
  simp only [extractTablesAndAliases, hmap, hfrom, hjoin, List.foldl_cons, List.foldl_nil]
  simp only [taStep]
  cases hok : joinAliasOk (⟨A⟩ : String) with
  | true => simp [hok, jsSet]
  | false => simp [hok]

lemma fromAliasOk_iff (a : String) :
    fromAliasOk a = true ↔
      a ∉ [("where" : String), ("join"), ("left"), ("right"), ("inner"), ("outer")] := by
  simp [fromAliasOk, List.mem_cons, not_or, and_assoc]

lemma joinAliasOk_iff (a : String) :
    joinAliasOk a = true ↔
      a ∉ [("on" : String), ("where"), ("join"), ("left"), ("right"), ("inner"),
        ("outer")] := by
  simp [joinAliasOk, List.mem_cons, not_or, and_assoc]

/-- C6 counterexample: both extraction regexes run over the lower-cased copy of
the text (`src/sql-parser.ts` line 119), so the value stored in the alias map is
the lower-cased table identifier, not the identifier as written: for
`FROM Orders o` the alias `o` maps to `orders`, which differs from the source
spelling `Orders`. -/
theorem c6_counterexample :
    (extractTablesAndAliases (("FROM Orders o")).data).2 =
      [(("o" : String), ("orders" : String))] ∧
    ("orders" : String) ≠ ("Orders") := by
  constructor
  · decide
  · decide

/-- C6 (amended): every alias-map entry produced for a `FROM <table> <alias>`
clause maps the lower-cased alias to the LOWER-CASED table identifier (the
regex scans the lower-cased text, so values are case-folded too, contrary to
the claim that values keep the source spelling): for any text whose lower-cased
form is `from T A` with word tokens `T`, `A` and `A` accepted, the alias map is
exactly `[(A, T)]` in lower case, and in particular every stored value is
invariant under lower-casing. -/
theorem c6_alias_values_lowercased (text T A : List Char)
    (hmap : text.map lowChar = 'f' :: 'r' :: 'o' :: 'm' :: ' ' :: (T ++ ' ' :: A))
    (hT : T ≠ []) (hTw : ∀ c ∈ T, isWordChar c = true)
    (hTlc : ∀ c ∈ T, lowChar c = c)
    (hTj : ¬ List.IsSuffix ('j' :: 'o' :: 'i' :: 'n' :: []) T)
    (hA : A ≠ []) (hAw : ∀ c ∈ A, isWordChar c = true)
    (hok : fromAliasOk ⟨A⟩ = true) :
    (extractTablesAndAliases text).2 = [((⟨A⟩ : String), (⟨T⟩ : String))] ∧
    ∀ p ∈ (extractTablesAndAliases text).2,
      p.2.data.map lowChar = p.2.data := by
  have h := extract_family_from text T A hmap hT hTw hTlc hTj hA hAw
  rw [h, if_pos hok]
  refine ⟨rfl, ?_⟩
  intro p hp
  have hp' : p = ((⟨A⟩ : String), (⟨T⟩ : String)) := List.mem_singleton.1 hp
  rw [hp']
  exact map_id_of hTlc

/-- C6 witness: `FROM Orders O` (mixed case in the source) yields the alias map
`[(o, orders)]` — the value is the lower-cased `orders`. -/
theorem c6_alias_values_lowercased_witness :
    (extractTablesAndAliases (("FROM Orders O")).data).2 =
      [(("o" : String), ("orders" : String))] :=
  (c6_alias_values_lowercased (("FROM Orders O")).data (("orders")).data
    (("o")).data (by decide) (by decide) (by decide) (by decide) (by decide)
    (by decide) (by decide) (by decide)).1

/-- C8 counterexample: the FROM branch's rejected-keyword list omits `on`
(`src/sql-parser.ts` line 131), so in `from t on` the token `on` IS accepted as
an alias of `t`: it is recorded in the alias map and pushed to the table list,
contradicting the claim that `ON` is rejected for both FROM and JOIN clauses. -/
theorem c8_counterexample :
    extractTablesAndAliases (("from t on")).data =
      ([("t" : String), ("on")], [(("on" : String), ("t" : String))]) := by
  decide

/-- C8 (amended): for a `FROM <table> <alias>` clause the candidate alias is
rejected exactly when it is one of WHERE, JOIN, LEFT, RIGHT, INNER, OUTER —
`on` is NOT in the FROM branch's list — while for a `JOIN <table> <alias>`
clause the rejected list additionally contains ON; in each case a rejected
token is neither recorded in the alias map nor added to the table list, and an
accepted token is recorded in both. -/
theorem c8_alias_keyword_filter :
    (∀ text T A : List Char,
      text.map lowChar = 'f' :: 'r' :: 'o' :: 'm' :: ' ' :: (T ++ ' ' :: A) →
      T ≠ [] → (∀ c ∈ T, isWordChar c = true) → (∀ c ∈ T, lowChar c = c) →
      ¬ List.IsSuffix ('j' :: 'o' :: 'i' :: 'n' :: []) T →
      A ≠ [] → (∀ c ∈ A, isWordChar c = true) →
      extractTablesAndAliases text =
        if (⟨A⟩ : String) ∈ [("where" : String), ("join"), ("left"), ("right"),
            ("inner"), ("outer")]
        then ([(⟨T⟩ : String)], [])
        else ([⟨T⟩, ⟨A⟩], [((⟨A⟩ : String), (⟨T⟩ : String))])) ∧
    (∀ text T A : List Char,
      text.map lowChar = 'j' :: 'o' :: 'i' :: 'n' :: ' ' :: (T ++ ' ' :: A) →
      T ≠ [] → (∀ c ∈ T, isWordChar c = true) → (∀ c ∈ T, lowChar c = c) →
      ¬ List.IsSuffix ('f' :: 'r' :: 'o' :: 'm' :: []) T →
      A ≠ [] → (∀ c ∈ A, isWordChar c = true) →
      extractTablesAndAliases text =
        if (⟨A⟩ : String) ∈ [("on" : String), ("where"), ("join"), ("left"),
            ("right"), ("inner"), ("outer")]
        then ([(⟨T⟩ : String)], [])
        else ([⟨T⟩, ⟨A⟩], [((⟨A⟩ : String), (⟨T⟩ : String))])) := by
  constructor
  · intro text T A hmap hT hTw hTlc hTj hA hAw
    rw [extract_family_from text T A hmap hT hTw hTlc hTj hA hAw]
    by_cases hmem : (⟨A⟩ : String) ∈ [("where" : String), ("join"), ("left"),
      ("right"), ("inner"), ("outer")]
    · rw [if_pos hmem, if_neg (fun hok => (fromAliasOk_iff ⟨A⟩).1 hok hmem)]
    · rw [if_neg hmem, if_pos ((fromAliasOk_iff ⟨A⟩).2 hmem)]
  · intro text T A hmap hT hTw hTlc hTf hA hAw
    rw [extract_family_join text T A hmap hT hTw hTlc hTf hA hAw]
    by_cases hmem : (⟨A⟩ : String) ∈ [("on" : String), ("where"), ("join"),
      ("left"), ("right"), ("inner"), ("outer")]
    · rw [if_pos hmem, if_neg (fun hok => (joinAliasOk_iff ⟨A⟩).1 hok hmem)]
    · rw [if_neg hmem, if_pos ((joinAliasOk_iff ⟨A⟩).2 hmem)]

/-- C8 witness: `from t on` accepts the alias `on` (the FROM list omits it),
while `join t where` rejects `where`. -/
theorem c8_alias_keyword_filter_witness :
    extractTablesAndAliases (("from t on")).data =
      ([("t" : String), ("on")], [(("on" : String), ("t" : String))]) ∧
    extractTablesAndAliases (("join t where")).data = ([("t" : String)], []) := by
  constructor
  · have h := c8_alias_keyword_filter.1 (("from t on")).data (("t")).data
      (("on")).data (by decide) (by decide) (by decide) (by decide) (by decide)
      (by decide) (by decide)
    rw [h]
    decide
  · have h := c8_alias_keyword_filter.2 (("join t where")).data (("t")).data
      (("where")).data (by decide) (by decide) (by decide) (by decide) (by decide)
      (by decide) (by decide)
    rw [h]
    decide

end SnowLSP
